import Mathlib

/-!
Verification development for the mlsgpu out-of-core meshing pipeline.

The development shallowly embeds the data model and the operations of the
pipeline: the range coder over (scan, index) pairs, the octree cell traversal
of the bucketer, the accelerated blob-stream dispatch of the splat sets, the
cell-assignment and distance queries of the GPU splat tree, and the
welder-and-pruner mesher.  Components whose implementation files are part of
the corpus (the splat sets) are translated from the source; components whose
implementation is exercised only through the test suite are modelled from the
specification, with the test expectations pinning the behaviour.  Machine
integers are modelled as naturals/integers with explicit bounds where overflow
matters, and floats as rationals (every concrete value appearing in the
reference scenarios is exactly representable).
-/

namespace Mlsgpu

/-! ## Range coder (Bucket::Range, RangeCollector) -/

namespace Bucket

/-- Modelled from the spec: the compact triple of the range coder
(src/bucket.h is not in the corpus; only test_bucket.cpp is).  A `Range`
holds a scan identifier, a 64-bit start index and a 32-bit size, and encodes
the contiguous run of splat IDs `[start, start + size)` of one scan. -/
structure Range where
  scan : Nat
  start : Nat
  size : Nat
deriving DecidableEq

/-- Largest value of the 32-bit size field of a `Range` (0xFFFFFFFF). -/
def sizeMax : Nat := 2 ^ 32 - 1

/-- Modelled from the spec: `Range::append(scan, index)` (implementation not in
the corpus).  The C++ member returns a bool and mutates in place; here failure
is `none` and success returns the updated range.  An empty range accepts any
pair as a fresh singleton run; a non-empty range absorbs an index that is
already inside the run, extends by one when the index is exactly
`start + size` and the 32-bit size counter has room, and fails otherwise.
The size counter saturates at `sizeMax = 2^32 - 1` (the largest representable
value of the 32-bit field), as exercised by `TestRange::testAppendOverflow`. -/
def Range.append (r : Range) (scan idx : Nat) : Option Range :=
  if r.size = 0 then some ⟨scan, idx, 1⟩
  else if scan = r.scan ∧ r.start ≤ idx ∧ idx - r.start ≤ r.size then
    (if idx - r.start = r.size then
      (if r.size < sizeMax then some ⟨r.scan, r.start, r.size + 1⟩ else none)
     else some r)
  else none

/-- Modelled from the spec: the `RangeCollector` state machine: one open range
plus the ordered list of ranges already emitted to the sink. -/
structure Collector where
  current : Range
  emitted : List Range
deriving DecidableEq

/-- A freshly constructed collector: empty open range, nothing emitted. -/
def Collector.new : Collector := ⟨⟨0, 0, 0⟩, []⟩

/-- Modelled from the spec: `RangeCollector::append` — extend the open range
when `Range::append` succeeds, otherwise emit the open range to the sink and
start a new singleton range. -/
def Collector.append (c : Collector) (scan idx : Nat) : Collector :=
  match c.current.append scan idx with
  | some r => ⟨r, c.emitted⟩
  | none => ⟨⟨scan, idx, 1⟩, c.emitted ++ [c.current]⟩

/-- Modelled from the spec: `RangeCollector::flush` — emit the open range if it
is non-empty and reset it. -/
def Collector.flush (c : Collector) : Collector :=
  if c.current.size = 0 then c else ⟨⟨0, 0, 0⟩, c.emitted ++ [c.current]⟩

/-- Feed a whole list of (scan, index) pairs to a collector. -/
def Collector.appendAll (c : Collector) (xs : List (Nat × Nat)) : Collector :=
  xs.foldl (fun c p => c.append p.1 p.2) c

end Bucket

end Mlsgpu

namespace Mlsgpu.Bucket

/-- C4, counterexample: the claim allows any `n < 2^32`, but the 32-bit size
field already holds its largest value at `n = 2^32 - 1 = 0xFFFFFFFF`, and
`append` then fails (mirroring `TestRange::testAppendOverflow`). -/
theorem C4_append_counterexample :
    Range.append ⟨3, 0x90000000, 0xFFFFFFFF⟩ 3 (0x90000000 + 0xFFFFFFFF) = none ∧
    (0xFFFFFFFF : Nat) < 2 ^ 32 := by
  constructor
  · have h1 : ¬((0x90000000 + 0xFFFFFFFF : Nat) - 0x90000000 < sizeMax) := by decide
    simp [Range.append, sizeMax] at h1 ⊢
  · decide

/-- C4, amended: for an open range `(s, i, n)` with `n + 1 ≤ 2^32 - 1` (rather
than `n < 2^32`), appending `(s, i + n)` succeeds and the range becomes
`(s, i, n + 1)`; and for `0 < n`, appending a different scan, or an index
strictly below `i` or strictly above `i + n`, fails and leaves scan, start and
size unchanged (failure returns `none`, the range value untouched). -/
theorem C4_append_amended (s i n : Nat) (hn : n + 1 ≤ sizeMax) :
    Range.append ⟨s, i, n⟩ s (i + n) = some ⟨s, i, n + 1⟩ ∧
    (0 < n → ∀ s2 j, (s2 ≠ s ∨ j < i ∨ i + n < j) →
      Range.append ⟨s, i, n⟩ s2 j = none) := by
  constructor
  · by_cases h0 : n = 0
    · subst h0; simp [Range.append]
    · have hc : s = s ∧ i ≤ i + n ∧ (i + n) - i ≤ n := by omega
      have hd : (i + n) - i = n := by omega
      simp [Range.append, h0, hc, hd, Nat.lt_of_succ_le hn]
  · intro hpos s2 j hbad
    have h0 : ¬(n = 0) := by omega
    have hc : ¬(s2 = s ∧ i ≤ j ∧ j - i ≤ n) := by
      rcases hbad with hs | hj | hj <;> omega
    unfold Range.append
    rw [if_neg (show ¬((⟨s, i, n⟩ : Range).size = 0) from h0),
        if_neg (show ¬(s2 = (⟨s, i, n⟩ : Range).scan ∧ (⟨s, i, n⟩ : Range).start ≤ j ∧
          j - (⟨s, i, n⟩ : Range).start ≤ (⟨s, i, n⟩ : Range).size) from hc)]

/-- C4, witness for the amended theorem at a concrete input. -/
theorem C4_append_amended_witness :
    Range.append ⟨4, 7, 5⟩ 4 (7 + 5) = some ⟨4, 7, 5 + 1⟩ ∧
    (0 < 5 → ∀ s2 j, (s2 ≠ 4 ∨ j < 7 ∨ 7 + 5 < j) →
      Range.append ⟨4, 7, 5⟩ s2 j = none) :=
  C4_append_amended 4 7 5 (by decide)

/-- C10: appending an index already inside an open range succeeds while leaving
scan, start and size unchanged, and consequently the duplicate append sequence
(3,5), (3,6), (3,6) followed by a flush produces the single range (3,5,2). -/
theorem C10_append_inside (s i n j : Nat) (hn : 0 < n) (h1 : i ≤ j) (h2 : j < i + n) :
    Range.append ⟨s, i, n⟩ s j = some ⟨s, i, n⟩ ∧
    ((Collector.new.appendAll [(3, 5), (3, 6), (3, 6)]).flush).emitted = [⟨3, 5, 2⟩] := by
  constructor
  · have h0 : ¬(n = 0) := by omega
    have hc : s = s ∧ i ≤ j ∧ j - i ≤ n := by omega
    have hd : ¬(j - i = n) := by omega
    simp [Range.append, h0, hc, hd]
  · decide

/-- C10, witness at a concrete inside-index input. -/
theorem C10_append_inside_witness :
    Range.append ⟨5, 10, 3⟩ 5 11 = some ⟨5, 10, 3⟩ ∧
    ((Collector.new.appendAll [(3, 5), (3, 6), (3, 6)]).flush).emitted = [⟨3, 5, 2⟩] :=
  C10_append_inside 5 10 3 11 (by decide) (by decide) (by decide)

/-! ## Octree cell traversal (Bucket::internal::forEachCell) -/

/-- A cubic cell of the voxel grid: base coordinates and level.  The cell
covers the half-open voxel range `[base, base + 2^level)` on every axis. -/
structure Cell where
  x : Nat
  y : Nat
  z : Nat
  level : Nat
deriving DecidableEq

/-- Modelled from the spec: the result of `forEachCell` (src/bucket.cpp is not
in the corpus) — either the ordered list of visited cells or the
invalid-argument failure thrown on a bad `maxCellSide`. -/
inductive CellResult where
  | ok : List Cell → CellResult
  | invalidArgument : CellResult
deriving DecidableEq

/-- The eight child offsets of a cell, in the fixed Morton order
(x0,y0,z0), (x1,y0,z0), (x0,y1,z0), (x1,y1,z0), (x0,y0,z1), ... -/
def childOffsets : List (Nat × Nat × Nat) :=
  [(0,0,0), (1,0,0), (0,1,0), (1,1,0), (0,0,1), (1,0,1), (0,1,1), (1,1,1)]

/-- Modelled from the spec: the recursive traversal of `forEachCell`.  Every
visited cell is recorded (the callback is invoked on it); descent into the
eight children, clipped to the grid dimensions, happens iff the callback
returned true and the cell is not a level-0 leaf. -/
def visit (dims : Nat × Nat × Nat) (f : Cell → Bool) : Nat → Nat × Nat × Nat → List Cell
  | 0, b => [⟨b.1, b.2.1, b.2.2, 0⟩]
  | l+1, b =>
    let c : Cell := ⟨b.1, b.2.1, b.2.2, l+1⟩
    c :: (if f c then
      (childOffsets.filterMap (fun o =>
        let nb := (b.1 + o.1 * 2 ^ l, b.2.1 + o.2.1 * 2 ^ l, b.2.2 + o.2.2 * 2 ^ l)
        if nb.1 < dims.1 ∧ nb.2.1 < dims.2.1 ∧ nb.2.2 < dims.2.2 then some nb else none)).flatMap
        (visit dims f l)
    else [])

/-- Whether a natural number is a positive power of two. -/
def isPow2 (n : Nat) : Bool := decide (n ≠ 0) && (n &&& (n - 1) == 0)

/-- The level of the root cell of the implicit octree over a region: the
smallest level whose cell side covers every dimension. -/
def rootLevel (dims : Nat × Nat × Nat) : Nat :=
  (List.range 64).findIdx (fun L => decide (dims.1 ≤ 2 ^ L ∧ dims.2.1 ≤ 2 ^ L ∧ dims.2.2 ≤ 2 ^ L))

/-- Modelled from the spec: `forEachCell(dims, maxCellSide, f)` traverses the
implicit top-down octree over the region, invoking `f` on each visited cell
and pruning descent iff `f` returned false; `maxCellSide` must be a positive
power of two that does not exceed any dimension, else the call fails with
invalid argument. -/
def forEachCell (dims : Nat × Nat × Nat) (maxCellSide : Nat) (f : Cell → Bool) : CellResult :=
  if isPow2 maxCellSide = true ∧ maxCellSide ≤ dims.1 ∧ maxCellSide ≤ dims.2.1 ∧
      maxCellSide ≤ dims.2.2 then
    .ok (visit dims f (rootLevel dims) (0, 0, 0))
  else .invalidArgument

/-- The predicate of `TestForEachCell::testSimple`: true exactly on cells whose
voxel range contains the voxel (2,1,4) — the voxel whose real-space extent is
the region [2,3]×[1,2]×[4,5]. -/
def testCellPred (c : Cell) : Bool :=
  decide (c.x ≤ 2 ∧ 2 < c.x + 2 ^ c.level ∧ c.y ≤ 1 ∧ 1 < c.y + 2 ^ c.level ∧
    c.z ≤ 4 ∧ 4 < c.z + 2 ^ c.level)

/-- C5: on the region of dims (4,4,6) with maxCellSide 4 and the reference
predicate, `forEachCell` visits exactly 15 cells in the fixed reference order,
descending only where the predicate returned true and stopping at level-0
leaves; and the calls with maxCellSide 100, 0 and 3 fail with invalid
argument. -/
theorem C5_forEachCell :
    forEachCell (4,4,6) 4 testCellPred =
      .ok [⟨0,0,0,3⟩, ⟨0,0,0,2⟩, ⟨0,0,4,2⟩, ⟨0,0,4,1⟩, ⟨2,0,4,1⟩, ⟨2,0,4,0⟩, ⟨3,0,4,0⟩,
           ⟨2,1,4,0⟩, ⟨3,1,4,0⟩, ⟨2,0,5,0⟩, ⟨3,0,5,0⟩, ⟨2,1,5,0⟩, ⟨3,1,5,0⟩, ⟨0,2,4,1⟩,
           ⟨2,2,4,1⟩] ∧
    forEachCell (4,4,6) 100 testCellPred = .invalidArgument ∧
    forEachCell (4,4,6) 0 testCellPred = .invalidArgument ∧
    forEachCell (4,4,6) 3 testCellPred = .invalidArgument := by
  refine ⟨by decide, by decide, by decide, by decide⟩

end Mlsgpu.Bucket

/-! ## Splat sets: accelerated blob streams (SplatSet::FastBlobSet) -/

namespace Mlsgpu.SplatSet

/-- A world-aligned voxel grid, as far as the fast-path test consults it:
reference point, spacing, and lower extents per axis.  Floats are modelled as
rationals; the fast-path test only compares them for equality against each
other and against zero. -/
structure Grid where
  reference : ℚ × ℚ × ℚ
  spacing : ℚ
  extentLo : ℤ × ℤ × ℤ
deriving DecidableEq

/-- The state of a `FastBlobSet` after `computeBlobs`: the internal bucket
size it was computed for and the bounding grid it generated (whose spacing is
the spacing passed to `computeBlobs` and whose reference is the origin). -/
structure FastBlobSetData where
  internalBucketSize : Nat
  boundingGrid : Grid
deriving DecidableEq

/-- Result of the fast-path test: a boolean, or one of the two assertion
failures (`state_error` when `computeBlobs` has not run,
`std::invalid_argument` on a zero bucket size). -/
inductive PathResult where
  | ok : Bool → PathResult
  | stateError : PathResult
  | invalidArgument : PathResult
deriving DecidableEq

/-- Translated from `FastBlobSet::fastPath` (src/unnamed/part_000 lines
321-337): the pre-generated blob data is usable iff the requested bucket size
is a multiple of the internal bucket size, the grid spacing equals the
bounding grid's spacing, and on every axis the reference is zero and the lower
extent is a multiple of the internal bucket size. -/
def fastPath (S : FastBlobSetData) (grid : Grid) (bucketSize : Nat) : PathResult :=
  if S.internalBucketSize = 0 then .stateError
  else if bucketSize = 0 then .invalidArgument
  else if bucketSize % S.internalBucketSize ≠ 0 then .ok false
  else if S.boundingGrid.spacing ≠ grid.spacing then .ok false
  else if grid.reference.1 ≠ 0 ∨ grid.extentLo.1 % (S.internalBucketSize : ℤ) ≠ 0 then .ok false
  else if grid.reference.2.1 ≠ 0 ∨ grid.extentLo.2.1 % (S.internalBucketSize : ℤ) ≠ 0 then .ok false
  else if grid.reference.2.2 ≠ 0 ∨ grid.extentLo.2.2 % (S.internalBucketSize : ℤ) ≠ 0 then .ok false
  else .ok true

/-- The two kinds of blob stream `makeBlobStream` can return: the accelerated
precomputed stream (`MyBlobStream`) or the generic per-splat recomputation
inherited from the base class. -/
inductive StreamKind where
  | fast : StreamKind
  | generic : StreamKind
deriving DecidableEq

/-- Result of `makeBlobStream`: a stream kind or an assertion failure. -/
inductive StreamResult where
  | ok : StreamKind → StreamResult
  | stateError : StreamResult
  | invalidArgument : StreamResult
deriving DecidableEq

/-- Translated from `FastBlobSet::makeBlobStream` (src/unnamed/part_000 lines
150-158): dispatches to the accelerated stream iff `fastPath` holds, else to
the generic stream. -/
def makeBlobStream (S : FastBlobSetData) (grid : Grid) (bucketSize : Nat) : StreamResult :=
  match fastPath S grid bucketSize with
  | .ok true => .ok .fast
  | .ok false => .ok .generic
  | .stateError => .stateError
  | .invalidArgument => .invalidArgument

/-- The fast-path condition exactly as the claim words it: the grid's spacing
is a (natural) multiple of the pre-computed internal bucket size, its
reference is the origin, and its lower extents are aligned to the internal
bucket size. -/
def claimFastCondition (S : FastBlobSetData) (grid : Grid) : Prop :=
  (∃ k : ℕ, grid.spacing = (k : ℚ) * (S.internalBucketSize : ℚ)) ∧
  grid.reference = (0, 0, 0) ∧
  grid.extentLo.1 % (S.internalBucketSize : ℤ) = 0 ∧
  grid.extentLo.2.1 % (S.internalBucketSize : ℤ) = 0 ∧
  grid.extentLo.2.2 % (S.internalBucketSize : ℤ) = 0

/-- C6, counterexample: a `FastBlobSet` computed with internal bucket size 1
and spacing 1, queried with a grid of spacing 2 (a multiple of the internal
bucket size), origin reference and aligned extents: the claim's condition
holds, yet `makeBlobStream` takes the generic path, because the code requires
the spacings to be equal (and constrains the bucket-size argument, not the
spacing, to be a multiple of the internal bucket size). -/
theorem C6_fastpath_counterexample :
    claimFastCondition ⟨1, ⟨(0,0,0), 1, (0,0,0)⟩⟩ ⟨(0,0,0), 2, (0,0,0)⟩ ∧
    makeBlobStream ⟨1, ⟨(0,0,0), 1, (0,0,0)⟩⟩ ⟨(0,0,0), 2, (0,0,0)⟩ 1 = .ok .generic := by
  refine ⟨⟨⟨2, by norm_num⟩, rfl, by decide, by decide, by decide⟩, by decide⟩

/-- C6, amended: with `computeBlobs` run (positive internal bucket size) and a
positive bucket size, `makeBlobStream` returns the accelerated precomputed
stream iff the requested bucket size is a multiple of the internal bucket
size, the grid's spacing equals the spacing passed to `computeBlobs`, its
reference is the origin, and its lower extents are multiples of the internal
bucket size; otherwise it returns the generic stream. -/
theorem C6_fastpath_amended (S : FastBlobSetData) (grid : Grid) (bucketSize : Nat)
    (h1 : 0 < S.internalBucketSize) (h2 : 0 < bucketSize) :
    makeBlobStream S grid bucketSize = .ok .fast ↔
      (bucketSize % S.internalBucketSize = 0 ∧ grid.spacing = S.boundingGrid.spacing ∧
       grid.reference = (0, 0, 0) ∧
       grid.extentLo.1 % (S.internalBucketSize : ℤ) = 0 ∧
       grid.extentLo.2.1 % (S.internalBucketSize : ℤ) = 0 ∧
       grid.extentLo.2.2 % (S.internalBucketSize : ℤ) = 0) := by
  unfold makeBlobStream fastPath
  rw [if_neg (by omega), if_neg (by omega)]
  rcases grid with ⟨⟨r1, r2, r3⟩, sp, ⟨e1, e2, e3⟩⟩
  split_ifs with hA hB hC hD hE <;> simp_all <;> tauto

/-- C6, witness for the amended theorem at a concrete state and grid. -/
theorem C6_fastpath_amended_witness :
    makeBlobStream ⟨2, ⟨(0,0,0), 1, (0,0,0)⟩⟩ ⟨(0,0,0), 1, (4,2,0)⟩ 4 = .ok .fast ↔
      ((4 : Nat) % 2 = 0 ∧ (1 : ℚ) = 1 ∧ ((0 : ℚ), (0 : ℚ), (0 : ℚ)) = (0, 0, 0) ∧
       (4 : ℤ) % (2 : ℤ) = 0 ∧ (2 : ℤ) % (2 : ℤ) = 0 ∧ (0 : ℤ) % (2 : ℤ) = 0) :=
  C6_fastpath_amended ⟨2, ⟨(0,0,0), 1, (0,0,0)⟩⟩ ⟨(0,0,0), 1, (4,2,0)⟩ 4
    (by decide) (by decide)

end Mlsgpu.SplatSet

/-! ## Splat-tree octree kernels (kernels/octree.cl: levelShift, pointBoxDist2) -/

namespace Mlsgpu.Octree

/-- Whether dropping `k` low bits (arithmetic shift, i.e. floor division by
`2^k`) leaves the two corners equal or adjacent (differing by at most one) on
every axis. -/
def shiftOk (lo hi : ℤ × ℤ × ℤ) (k : Nat) : Bool :=
  decide (hi.1 / 2 ^ k - lo.1 / 2 ^ k ≤ 1 ∧ hi.2.1 / 2 ^ k - lo.2.1 / 2 ^ k ≤ 1 ∧
    hi.2.2 / 2 ^ k - lo.2.2 / 2 ^ k ≤ 1)

/-- Fuelled search for the smallest shift satisfying a per-shift test,
starting at `k`; returns the running index when the fuel runs out. -/
def levelShiftAux (lo hi : ℤ × ℤ × ℤ) : Nat → Nat → Nat
  | k, 0 => k
  | k, fuel + 1 => if shiftOk lo hi k then k else levelShiftAux lo hi (k + 1) fuel

/-- Modelled from the spec: `levelShift(lo, hi)` from kernels/octree.cl (the
kernel source is not in the corpus).  The test suite pins the semantics: the
result is the smallest number of low bits to drop from both endpoints so that
they become equal or adjacent on every axis — the level at which the two
corners of a splat's bucket range span at most two cells per axis.  The fuel
of 64 covers the 32-bit cell coordinates of the device code. -/
def levelShift (lo hi : ℤ × ℤ × ℤ) : Nat := levelShiftAux lo hi 0 64

/-- Whether dropping `k` low bits makes the two corners exactly equal on every
axis — the characterisation the claim asserts. -/
def eqShiftOk (lo hi : ℤ × ℤ × ℤ) (k : Nat) : Bool :=
  decide (hi.1 / 2 ^ k = lo.1 / 2 ^ k ∧ hi.2.1 / 2 ^ k = lo.2.1 / 2 ^ k ∧
    hi.2.2 / 2 ^ k = lo.2.2 / 2 ^ k)

/-- Fuelled search for the smallest shift making the corners equal. -/
def claimLevelShiftAux (lo hi : ℤ × ℤ × ℤ) : Nat → Nat → Nat
  | k, 0 => k
  | k, fuel + 1 => if eqShiftOk lo hi k then k else claimLevelShiftAux lo hi (k + 1) fuel

/-- The claim's characterisation of `levelShift`: the smallest `k` such that
`lo >> k = hi >> k` componentwise. -/
def claimLevelShift (lo hi : ℤ × ℤ × ℤ) : Nat := claimLevelShiftAux lo hi 0 64

/-- C7, counterexample: on the reference input (31,0,0)-(36,0,0) the test (and
hence the function) returns 3, but the smallest `k` with `31 >> k = 36 >> k`
is 6 — after dropping 3 bits the corners are 3 and 4, adjacent but not
equal.  The claim's characterisation therefore contradicts its own example. -/
theorem C7_levelShift_counterexample :
    levelShift (31,0,0) (36,0,0) = 3 ∧ claimLevelShift (31,0,0) (36,0,0) = 6 ∧
    (31 : ℤ) / 2 ^ 3 ≠ (36 : ℤ) / 2 ^ 3 := by
  refine ⟨by decide, by decide, by decide⟩

/-- Minimality of the fuelled search: if some shift within the fuel budget
satisfies the test, the search returns the smallest satisfying shift. -/
theorem levelShiftAux_least (lo hi : ℤ × ℤ × ℤ) :
    ∀ fuel k, (∃ j, k ≤ j ∧ j < k + fuel ∧ shiftOk lo hi j = true) →
      shiftOk lo hi (levelShiftAux lo hi k fuel) = true ∧
      (∀ j, k ≤ j → j < levelShiftAux lo hi k fuel → shiftOk lo hi j = false) := by
  intro fuel
  induction fuel with
  | zero => intro k ⟨j, h1, h2, h3⟩; omega
  | succ n ih =>
    intro k ⟨j, h1, h2, h3⟩
    by_cases hk : shiftOk lo hi k
    · refine ⟨by simp [levelShiftAux, hk], ?_⟩
      intro j1 hj1 hj2
      simp [levelShiftAux, hk] at hj2
      omega
    · have hstep : levelShiftAux lo hi k (n + 1) = levelShiftAux lo hi (k + 1) n := by
        simp [levelShiftAux, hk]
      have hex : ∃ j, k + 1 ≤ j ∧ j < (k + 1) + n ∧ shiftOk lo hi j = true := by
        refine ⟨j, ?_, by omega, h3⟩
        rcases Nat.eq_or_lt_of_le h1 with rfl | h
        · exact absurd h3 (by simp [hk])
        · omega
      obtain ⟨ha, hb⟩ := ih (k + 1) hex
      rw [hstep]
      refine ⟨ha, ?_⟩
      intro j1 hj1 hj2
      rcases Nat.eq_or_lt_of_le hj1 with rfl | h
      · simpa using hk
      · exact hb j1 (by omega) hj2

/-- C7, amended: `levelShift(lo, hi)` returns the smallest number of low bits
to drop from both endpoints so that they become equal or adjacent (differ by
at most one) on every axis — the cell-coincidence level of the splat tree —
and on the reference inputs it returns 0 for (0,0,0)-(0,0,0), 3 for
(31,0,0)-(36,0,0) and 4 for (48,0,0)-(79,0,0). -/
theorem C7_levelShift_amended (lo hi : ℤ × ℤ × ℤ)
    (h : ∃ j, j < 64 ∧ shiftOk lo hi j = true) :
    shiftOk lo hi (levelShift lo hi) = true ∧
    (∀ j, j < levelShift lo hi → shiftOk lo hi j = false) ∧
    levelShift (0,0,0) (0,0,0) = 0 ∧ levelShift (31,0,0) (36,0,0) = 3 ∧
    levelShift (48,0,0) (79,0,0) = 4 := by
  obtain ⟨j, hj, hok⟩ := h
  obtain ⟨ha, hb⟩ := levelShiftAux_least lo hi 64 0 ⟨j, by omega, by omega, hok⟩
  exact ⟨ha, fun j1 hj1 => hb j1 (by omega) hj1, by decide, by decide, by decide⟩

/-- C7, witness for the amended theorem at the reference input
(31,0,0)-(36,0,0), where the shift 3 satisfies the equal-or-adjacent test. -/
theorem C7_levelShift_amended_witness :
    shiftOk (31,0,0) (36,0,0) (levelShift (31,0,0) (36,0,0)) = true ∧
    (∀ j, j < levelShift (31,0,0) (36,0,0) → shiftOk (31,0,0) (36,0,0) j = false) ∧
    levelShift (0,0,0) (0,0,0) = 0 ∧ levelShift (31,0,0) (36,0,0) = 3 ∧
    levelShift (48,0,0) (79,0,0) = 4 :=
  C7_levelShift_amended (31,0,0) (36,0,0) ⟨3, by decide, by decide⟩

/-- Clamp a rational to a closed interval. -/
def clampQ (x lo hi : ℚ) : ℚ := max lo (min x hi)

/-- Modelled from the spec: `pointBoxDist2(p, lo, hi)` from kernels/octree.cl
(the kernel source is not in the corpus).  The test suite pins the semantics:
clamp the point to the box and return the squared Euclidean length of the
difference.  Floats are modelled as rationals; every reference input is
exactly representable and the computation on them is exact. -/
def pointBoxDist2 (p lo hi : ℚ × ℚ × ℚ) : ℚ :=
  (p.1 - clampQ p.1 lo.1 hi.1) ^ 2 + (p.2.1 - clampQ p.2.1 lo.2.1 hi.2.1) ^ 2 +
    (p.2.2 - clampQ p.2.2 lo.2.2 hi.2.2) ^ 2

/-- The squared L∞ distance from the point to the box, the quantity the claim
asserts `pointBoxDist2` returns. -/
def claimPointBoxDistLinf2 (p lo hi : ℚ × ℚ × ℚ) : ℚ :=
  (max |p.1 - clampQ p.1 lo.1 hi.1| (max |p.2.1 - clampQ p.2.1 lo.2.1 hi.2.1|
    |p.2.2 - clampQ p.2.2 lo.2.2 hi.2.2|)) ^ 2

/-- Squared Euclidean distance between two points. -/
def sqDist (p q : ℚ × ℚ × ℚ) : ℚ :=
  (p.1 - q.1) ^ 2 + (p.2.1 - q.2.1) ^ 2 + (p.2.2 - q.2.2) ^ 2

/-- C8, counterexample: on the corner-case reference input the test expects
14.0, which is the squared Euclidean distance (1 + 4 + 9); the squared L∞
distance asserted by the claim is 9. -/
theorem C8_pointBoxDist2_counterexample :
    pointBoxDist2 (9, 11, -10) (-1, 0, -7) (8, 9, 8) = 14 ∧
    claimPointBoxDistLinf2 (9, 11, -10) (-1, 0, -7) (8, 9, 8) = 9 ∧ (14 : ℚ) ≠ 9 := by
  refine ⟨by norm_num [pointBoxDist2, clampQ], ?_, by norm_num⟩
  norm_num [claimPointBoxDistLinf2, clampQ]

/-- One-dimensional optimality of clamping: the clamped coordinate is at least
as close to the point as any coordinate inside the interval. -/
theorem sq_clamp_min (p lo hi q : ℚ) (h1 : lo ≤ q) (h2 : q ≤ hi) :
    (p - clampQ p lo hi) ^ 2 ≤ (p - q) ^ 2 := by
  unfold clampQ
  rcases le_or_lt p lo with h | h
  · have hm : max lo (min p hi) = lo := by
      rw [max_eq_left]
      exact le_trans (min_le_left _ _) h
    rw [hm]
    nlinarith
  · rcases le_or_lt hi p with h3 | h3
    · have hm : max lo (min p hi) = hi := by
        rw [min_eq_right h3, max_eq_right (le_trans h1 h2)]
      rw [hm]
      nlinarith
    · have hm : max lo (min p hi) = p := by
        rw [min_eq_left (le_of_lt h3), max_eq_right (le_of_lt h)]
      rw [hm]
      simp [sq_nonneg]

/-- C8, amended: `pointBoxDist2(p, lo, hi)` returns the squared Euclidean
distance from the point to the box (it is a lower bound on the squared
distance from `p` to any point of the box, and is zero whenever `p` lies
inside); on the reference inputs it returns 0 for the interior point, 4 for
the point above one face, and 14 for the point whose nearest box point is a
corner. -/
theorem C8_pointBoxDist2_amended (p lo hi q : ℚ × ℚ × ℚ)
    (hq : lo.1 ≤ q.1 ∧ q.1 ≤ hi.1 ∧ lo.2.1 ≤ q.2.1 ∧ q.2.1 ≤ hi.2.1 ∧
      lo.2.2 ≤ q.2.2 ∧ q.2.2 ≤ hi.2.2) :
    pointBoxDist2 p lo hi ≤ sqDist p q ∧
    ((lo.1 ≤ p.1 ∧ p.1 ≤ hi.1 ∧ lo.2.1 ≤ p.2.1 ∧ p.2.1 ≤ hi.2.1 ∧
      lo.2.2 ≤ p.2.2 ∧ p.2.2 ≤ hi.2.2) → pointBoxDist2 p lo hi = 0) ∧
    pointBoxDist2 (1/2, 1/2, 1/2) (0, 0, 0) (1, 1, 1) = 0 ∧
    pointBoxDist2 (1/4, 1/2, 3) (-3/2, 0, 1/2) (3/2, 3/4, 1) = 4 ∧
    pointBoxDist2 (9, 11, -10) (-1, 0, -7) (8, 9, 8) = 14 := by
  obtain ⟨hq1, hq2, hq3, hq4, hq5, hq6⟩ := hq
  refine ⟨?_, ?_, by norm_num [pointBoxDist2, clampQ], by norm_num [pointBoxDist2, clampQ],
    by norm_num [pointBoxDist2, clampQ]⟩
  · have a1 := sq_clamp_min p.1 lo.1 hi.1 q.1 hq1 hq2
    have a2 := sq_clamp_min p.2.1 lo.2.1 hi.2.1 q.2.1 hq3 hq4
    have a3 := sq_clamp_min p.2.2 lo.2.2 hi.2.2 q.2.2 hq5 hq6
    unfold pointBoxDist2 sqDist
    linarith
  · rintro ⟨h1, h2, h3, h4, h5, h6⟩
    unfold pointBoxDist2 clampQ
    rw [min_eq_left h2, max_eq_right h1, min_eq_left h4, max_eq_right h3,
      min_eq_left h6, max_eq_right h5]
    ring

/-- C8, witness for the amended theorem at the interior reference point. -/
theorem C8_pointBoxDist2_amended_witness :
    pointBoxDist2 (1/2, 1/2, 1/2) (0, 0, 0) (1, 1, 1) ≤
      sqDist (1/2, 1/2, 1/2) (1, 1, 1) ∧
    (((0 : ℚ) ≤ 1/2 ∧ (1/2 : ℚ) ≤ 1 ∧ (0 : ℚ) ≤ 1/2 ∧ (1/2 : ℚ) ≤ 1 ∧
      (0 : ℚ) ≤ 1/2 ∧ (1/2 : ℚ) ≤ 1) → pointBoxDist2 (1/2, 1/2, 1/2) (0, 0, 0) (1, 1, 1) = 0) ∧
    pointBoxDist2 (1/2, 1/2, 1/2) (0, 0, 0) (1, 1, 1) = 0 ∧
    pointBoxDist2 (1/4, 1/2, 3) (-3/2, 0, 1/2) (3/2, 3/4, 1) = 4 ∧
    pointBoxDist2 (9, 11, -10) (-1, 0, -7) (8, 9, 8) = 14 :=
  C8_pointBoxDist2_amended (1/2, 1/2, 1/2) (0, 0, 0) (1, 1, 1) (1, 1, 1)
    (by norm_num)

end Mlsgpu.Octree

/-! ## Grouping by connectivity (the union-find of the OOC mesher)

The mesher's union-find over vertex clumps is modelled as a partition of the
vertex names into groups, merged edge by edge; `build_same` proves that two
names end up in the same group exactly when they are related by the
equivalence closure of the edge relation, which is the basis for the
order-independence results. -/

namespace Mlsgpu.Partition

open Relation

variable {V : Type} [DecidableEq V]

/-- Whether two elements lie in the same group of a partition. -/
def sameG (p : List (List V)) (a b : V) : Bool :=
  p.any (fun g => decide (a ∈ g) && decide (b ∈ g))

/-- Whether a group contains either endpoint of the edge being merged. -/
def touches (a b : V) (g : List V) : Bool := decide (a ∈ g) || decide (b ∈ g)

/-- Merge the groups containing the two endpoints of an edge (the union
operation of the mesher's union-find, in partition form). -/
def addEdge (p : List (List V)) (a b : V) : List (List V) :=
  if sameG p a b then p
  else (p.filter (touches a b)).flatten :: p.filter (fun g => !(touches a b g))

/-- Build the partition of `vs` induced by the edge list `es`, starting from
singleton groups. -/
def build (vs : List V) (es : List (V × V)) : List (List V) :=
  es.foldl (fun p e => addEdge p e.1 e.2) (vs.dedup.map (fun v => [v]))

/-- Same-group as a proposition. -/
def SameC (p : List (List V)) (a b : V) : Prop := ∃ g ∈ p, a ∈ g ∧ b ∈ g

theorem sameG_iff (p : List (List V)) (a b : V) :
    sameG p a b = true ↔ SameC p a b := by
  simp [sameG, SameC, List.any_eq_true]

/-- Pairwise-disjoint groups. -/
def Disj (p : List (List V)) : Prop := p.Pairwise (fun g h => ∀ x, x ∈ g → x ∉ h)

theorem groups_eq {p : List (List V)} (hd : Disj p) {g1 g2 : List V}
    (h1 : g1 ∈ p) (h2 : g2 ∈ p) {x : V} (hx1 : x ∈ g1) (hx2 : x ∈ g2) : g1 = g2 := by
  induction p with
  | nil => cases h1
  | cons g rest ih =>
    obtain ⟨hg, hrest⟩ := List.pairwise_cons.mp hd
    rcases List.mem_cons.mp h1 with rfl | h1' <;> rcases List.mem_cons.mp h2 with rfl | h2'
    · rfl
    · exact absurd hx2 (hg g2 h2' x hx1)
    · exact absurd hx1 (hg g1 h1' x hx2)
    · exact ih hrest h1' h2'

theorem SameC.symm {p : List (List V)} {a b : V} (h : SameC p a b) : SameC p b a := by
  obtain ⟨g, hg, ha, hb⟩ := h
  exact ⟨g, hg, hb, ha⟩

theorem SameC.trans {p : List (List V)} (hd : Disj p) {a b c : V}
    (h1 : SameC p a b) (h2 : SameC p b c) : SameC p a c := by
  obtain ⟨g1, hg1, ha, hb⟩ := h1
  obtain ⟨g2, hg2, hb2, hc⟩ := h2
  cases groups_eq hd hg1 hg2 hb hb2
  exact ⟨g1, hg1, ha, hc⟩

theorem mem_merged {p : List (List V)} {a b x : V} :
    x ∈ (p.filter (touches a b)).flatten ↔ SameC p x a ∨ SameC p x b := by
  simp only [List.mem_flatten, List.mem_filter, touches, SameC, Bool.or_eq_true,
    decide_eq_true_eq]
  constructor
  · rintro ⟨g, ⟨hg, ha | hb⟩, hx⟩
    · exact Or.inl ⟨g, hg, hx, ha⟩
    · exact Or.inr ⟨g, hg, hx, hb⟩
  · rintro (⟨g, hg, hx, ha⟩ | ⟨g, hg, hx, hb⟩)
    · exact ⟨g, ⟨hg, Or.inl ha⟩, hx⟩
    · exact ⟨g, ⟨hg, Or.inr hb⟩, hx⟩

theorem addEdge_disj {p : List (List V)} (hd : Disj p) (a b : V) : Disj (addEdge p a b) := by
  unfold addEdge
  split
  · exact hd
  · refine List.pairwise_cons.mpr ⟨?_, ?_⟩
    · intro h hh x hx hxh
      have hh' : h ∈ p := List.mem_of_mem_filter hh
      have hht : ¬(touches a b h = true) := by
        have := (List.mem_filter.mp hh).2
        simpa using this
      rcases mem_merged.mp hx with ⟨g, hg, hxg, hag⟩ | ⟨g, hg, hxg, hbg⟩
      · cases groups_eq hd hg hh' hxg hxh
        exact hht (by simp [touches, hag])
      · cases groups_eq hd hg hh' hxg hxh
        exact hht (by simp [touches, hbg])
    · exact List.Pairwise.sublist (List.filter_sublist p) hd

theorem addEdge_same {p : List (List V)} (hd : Disj p) (a b x y : V) :
    SameC (addEdge p a b) x y ↔
      SameC p x y ∨ (SameC p x a ∧ SameC p b y) ∨ (SameC p x b ∧ SameC p a y) := by
  unfold addEdge
  split
  · next hab =>
    have hab' : SameC p a b := (sameG_iff p a b).mp hab
    constructor
    · exact Or.inl
    · rintro (h | ⟨h1, h2⟩ | ⟨h1, h2⟩)
      · exact h
      · exact (h1.trans hd (hab'.trans hd h2))
      · exact (h1.trans hd ((hab'.symm).trans hd h2))
  · next hab =>
    constructor
    · rintro ⟨g, hg, hx, hy⟩
      rcases List.mem_cons.mp hg with rfl | hg'
      · rcases mem_merged.mp hx with hxa | hxb <;> rcases mem_merged.mp hy with hya | hyb
        · exact Or.inl (hxa.trans hd hya.symm)
        · exact Or.inr (Or.inl ⟨hxa, hyb.symm⟩)
        · exact Or.inr (Or.inr ⟨hxb, hya.symm⟩)
        · exact Or.inl (hxb.trans hd hyb.symm)
      · have hg2 : g ∈ p := List.mem_of_mem_filter hg'
        exact Or.inl ⟨g, hg2, hx, hy⟩
    · have merge_of : ∀ u, SameC p u a ∨ SameC p u b →
          u ∈ (p.filter (touches a b)).flatten := fun u h => mem_merged.mpr h
      rintro (⟨g, hg, hx, hy⟩ | ⟨h1, h2⟩ | ⟨h1, h2⟩)
      · by_cases ht : touches a b g = true
        · refine ⟨(p.filter (touches a b)).flatten, List.mem_cons_self _ _, ?_, ?_⟩
          · exact List.mem_flatten.mpr ⟨g, List.mem_filter.mpr ⟨hg, ht⟩, hx⟩
          · exact List.mem_flatten.mpr ⟨g, List.mem_filter.mpr ⟨hg, ht⟩, hy⟩
        · refine ⟨g, ?_, hx, hy⟩
          exact List.mem_cons_of_mem _ (List.mem_filter.mpr ⟨hg, by simpa using ht⟩)
      · exact ⟨_, List.mem_cons_self _ _, merge_of x (Or.inl h1), merge_of y (Or.inr h2.symm)⟩
      · exact ⟨_, List.mem_cons_self _ _, merge_of x (Or.inr h1), merge_of y (Or.inl h2.symm)⟩

/-- The symmetric adjacency relation of an edge list. -/
def adj (es : List (V × V)) (u v : V) : Prop := (u, v) ∈ es ∨ (v, u) ∈ es

theorem eqvTrans {r : V → V → Prop} {x y z : V} (h1 : EqvGen r x y) (h2 : EqvGen r y z) :
    EqvGen r x z := EqvGen.trans x y z h1 h2

theorem eqvSymm {r : V → V → Prop} {x y : V} (h : EqvGen r x y) : EqvGen r y x :=
  EqvGen.symm x y h

theorem eqvGen_congr {r s : V → V → Prop} (h : ∀ u v, r u v ↔ s u v) {x y : V} :
    EqvGen r x y ↔ EqvGen s x y :=
  ⟨Relation.EqvGen.mono (fun u v hr => (h u v).mp hr),
   Relation.EqvGen.mono (fun u v hs => (h u v).mpr hs)⟩

theorem eqvGen_empty {r : V → V → Prop} (hr : ∀ u v, ¬r u v) {x y : V}
    (h : EqvGen r x y) : x = y := by
  induction h with
  | rel u v huv => exact absurd huv (hr u v)
  | refl u => rfl
  | symm u v _ ih => exact ih.symm
  | trans u v w _ _ ih1 ih2 => exact ih1.trans ih2

theorem eqvGen_add_pair (r : V → V → Prop) (a b x y : V) :
    EqvGen (fun u v => r u v ∨ (u = a ∧ v = b) ∨ (u = b ∧ v = a)) x y ↔
      EqvGen r x y ∨ (EqvGen r x a ∧ EqvGen r b y) ∨ (EqvGen r x b ∧ EqvGen r a y) := by
  constructor
  · intro h
    induction h with
    | rel u v huv =>
      rcases huv with h | ⟨rfl, rfl⟩ | ⟨rfl, rfl⟩
      · exact Or.inl (EqvGen.rel _ _ h)
      · exact Or.inr (Or.inl ⟨EqvGen.refl _, EqvGen.refl _⟩)
      · exact Or.inr (Or.inr ⟨EqvGen.refl _, EqvGen.refl _⟩)
    | refl u => exact Or.inl (EqvGen.refl u)
    | symm u v _ ih =>
      rcases ih with h | ⟨h1, h2⟩ | ⟨h1, h2⟩
      · exact Or.inl (eqvSymm h)
      · exact Or.inr (Or.inr ⟨eqvSymm h2, eqvSymm h1⟩)
      · exact Or.inr (Or.inl ⟨eqvSymm h2, eqvSymm h1⟩)
    | trans u v w _ _ ih1 ih2 =>
      rcases ih1 with h | ⟨h1, h2⟩ | ⟨h1, h2⟩ <;> rcases ih2 with h' | ⟨h1', h2'⟩ | ⟨h1', h2'⟩
      · exact Or.inl (eqvTrans h h')
      · exact Or.inr (Or.inl ⟨eqvTrans h h1', h2'⟩)
      · exact Or.inr (Or.inr ⟨eqvTrans h h1', h2'⟩)
      · exact Or.inr (Or.inl ⟨h1, eqvTrans h2 h'⟩)
      · exact Or.inl (eqvTrans h1 (eqvTrans (eqvSymm (eqvTrans h2 h1')) h2'))
      · exact Or.inl (eqvTrans h1 h2')
      · exact Or.inr (Or.inr ⟨h1, eqvTrans h2 h'⟩)
      · exact Or.inl (eqvTrans h1 h2')
      · exact Or.inl (eqvTrans (eqvTrans h1 (eqvSymm (eqvTrans h2 h1'))) h2')
  · rintro (h | ⟨h1, h2⟩ | ⟨h1, h2⟩)
    · exact Relation.EqvGen.mono (fun u v huv => Or.inl huv) h
    · have l1 : EqvGen (fun u v => r u v ∨ (u = a ∧ v = b) ∨ (u = b ∧ v = a)) x a :=
        Relation.EqvGen.mono (fun u v huv => Or.inl huv) h1
      have l2 : EqvGen (fun u v => r u v ∨ (u = a ∧ v = b) ∨ (u = b ∧ v = a)) b y :=
        Relation.EqvGen.mono (fun u v huv => Or.inl huv) h2
      have lab : EqvGen (fun u v => r u v ∨ (u = a ∧ v = b) ∨ (u = b ∧ v = a)) a b :=
        EqvGen.rel _ _ (Or.inr (Or.inl ⟨rfl, rfl⟩))
      exact eqvTrans (eqvTrans l1 lab) l2
    · have l1 : EqvGen (fun u v => r u v ∨ (u = a ∧ v = b) ∨ (u = b ∧ v = a)) x b :=
        Relation.EqvGen.mono (fun u v huv => Or.inl huv) h1
      have l2 : EqvGen (fun u v => r u v ∨ (u = a ∧ v = b) ∨ (u = b ∧ v = a)) a y :=
        Relation.EqvGen.mono (fun u v huv => Or.inl huv) h2
      have lba : EqvGen (fun u v => r u v ∨ (u = a ∧ v = b) ∨ (u = b ∧ v = a)) b a :=
        EqvGen.rel _ _ (Or.inr (Or.inr ⟨rfl, rfl⟩))
      exact eqvTrans (eqvTrans l1 lba) l2

theorem adj_append_pair (es : List (V × V)) (e : V × V) (u v : V) :
    adj (es ++ [e]) u v ↔ adj es u v ∨ (u = e.1 ∧ v = e.2) ∨ (u = e.2 ∧ v = e.1) := by
  rcases e with ⟨a, b⟩
  simp only [adj, List.mem_append, List.mem_singleton, Prod.mk.injEq]
  tauto

theorem build_aux (vs : List V) :
    ∀ (es : List (V × V)) (p : List (List V)) (done : List (V × V)),
      (∀ e ∈ es, e.1 ∈ vs ∧ e.2 ∈ vs) → Disj p →
      (∀ x y, SameC p x y ↔ x ∈ vs ∧ y ∈ vs ∧ EqvGen (adj done) x y) →
      ∀ x y, SameC (es.foldl (fun p e => addEdge p e.1 e.2) p) x y ↔
        x ∈ vs ∧ y ∈ vs ∧ EqvGen (adj (done ++ es)) x y := by
  intro es
  induction es with
  | nil => intro p done _ _ hinv x y; simpa using hinv x y
  | cons e rest ih =>
    intro p done hcl hd hinv x y
    obtain ⟨ha, hb⟩ := hcl e (List.mem_cons_self _ _)
    have hstep : ∀ x y, SameC (addEdge p e.1 e.2) x y ↔
        x ∈ vs ∧ y ∈ vs ∧ EqvGen (adj (done ++ [e])) x y := by
      intro x y
      rw [addEdge_same hd]
      simp only [hinv]
      rw [eqvGen_congr (fun u v => adj_append_pair done e u v),
        show EqvGen (fun u v => adj done u v ∨ (u = e.1 ∧ v = e.2) ∨ (u = e.2 ∧ v = e.1)) x y ↔ _
          from eqvGen_add_pair (adj done) e.1 e.2 x y]
      constructor
      · rintro (⟨hx, hy, h⟩ | ⟨⟨hx, _, h1⟩, ⟨_, hy, h2⟩⟩ | ⟨⟨hx, _, h1⟩, ⟨_, hy, h2⟩⟩)
        · exact ⟨hx, hy, Or.inl h⟩
        · exact ⟨hx, hy, Or.inr (Or.inl ⟨h1, h2⟩)⟩
        · exact ⟨hx, hy, Or.inr (Or.inr ⟨h1, h2⟩)⟩
      · rintro ⟨hx, hy, h | ⟨h1, h2⟩ | ⟨h1, h2⟩⟩
        · exact Or.inl ⟨hx, hy, h⟩
        · exact Or.inr (Or.inl ⟨⟨hx, ha, h1⟩, ⟨hb, hy, h2⟩⟩)
        · exact Or.inr (Or.inr ⟨⟨hx, hb, h1⟩, ⟨ha, hy, h2⟩⟩)
    have := ih (addEdge p e.1 e.2) (done ++ [e])
      (fun e' he' => hcl e' (List.mem_cons_of_mem _ he'))
      (addEdge_disj hd e.1 e.2) hstep x y
    simpa [List.append_assoc] using this

/-- Correctness of the partition construction: two names end up in the same
group exactly when they both occur and are related by the equivalence closure
of the edge adjacency. -/
theorem build_same (vs : List V) (es : List (V × V))
    (hcl : ∀ e ∈ es, e.1 ∈ vs ∧ e.2 ∈ vs) (x y : V) :
    SameC (build vs es) x y ↔ x ∈ vs ∧ y ∈ vs ∧ EqvGen (adj es) x y := by
  have hinit : ∀ x y, SameC (vs.dedup.map (fun v => [v])) x y ↔
      x ∈ vs ∧ y ∈ vs ∧ EqvGen (adj ([] : List (V × V))) x y := by
    intro x y
    constructor
    · rintro ⟨g, hg, hx, hy⟩
      obtain ⟨v, hv, rfl⟩ := List.mem_map.mp hg
      rw [List.mem_singleton] at hx hy
      subst hx
      subst hy
      exact ⟨List.mem_dedup.mp hv, List.mem_dedup.mp hv, EqvGen.refl _⟩
    · rintro ⟨hx, hy, h⟩
      have hxy : x = y := eqvGen_empty (by simp [adj]) h
      subst hxy
      exact ⟨[x], List.mem_map.mpr ⟨x, List.mem_dedup.mpr hx, rfl⟩, List.mem_singleton.mpr rfl,
        List.mem_singleton.mpr rfl⟩
  have hdisj : Disj (vs.dedup.map (fun v => [v])) := by
    have hnd : vs.dedup.Nodup := List.nodup_dedup vs
    unfold Disj
    rw [List.pairwise_map]
    refine hnd.imp ?_
    intro a b hab x hx1 hx2
    obtain rfl := List.mem_singleton.mp hx1
    exact hab (List.mem_singleton.mp hx2 ▸ rfl)
  have := build_aux vs es (vs.dedup.map (fun v => [v])) [] hcl hdisj hinit x y
  simpa [build] using this

end Mlsgpu.Partition

/-! ## The out-of-core mesher (welder and pruner)

Modelled from the spec: mesher.cpp is not in the corpus; only test_mesher.cpp
is.  The model captures the observable behaviour of the two-pass OOC mesher:
per-tile key meshes come in, external vertices with equal 64-bit keys are
welded into one global vertex, connected components of the welded mesh are
counted, components whose global vertex count falls below the prune threshold
are discarded, and one output mesh per chunk is written, with vertices
emitted once per chunk and triangles referencing the emission indices.  The
pass structure (counting pass, emitting pass, temporary files) is a memory
discipline with no observable effect on the written output and is not
modelled.  Global vertices are identified by `Name`: an internal vertex is
named by its (tile position, index) pair, an external vertex by its key, so
key welding is by construction, as the spec demands.  Triangles whose indices
are out of range (which the C++ precondition excludes) are ignored. -/

namespace Mlsgpu.Mesher

/-- Identity of one output file. -/
structure ChunkId where
  gen : Nat
  coords : Nat × Nat × Nat
deriving DecidableEq

instance : Inhabited ChunkId := ⟨⟨0, (0, 0, 0)⟩⟩

/-- A per-tile mesh (`HostKeyMesh`): the chunk it belongs to, internal vertex
positions, external vertices as (64-bit key, position) pairs, and triangles as
index triples, internals first (an index below the internal count names an
internal vertex, any other index names an external by position). -/
structure KeyMesh (α : Type) where
  chunk : ChunkId
  internals : List α
  externals : List (Nat × α)
  triangles : List (Nat × Nat × Nat)
deriving DecidableEq

/-- The global name of a vertex: an internal vertex is private to its tile and
named by (tile position, index); an external vertex is named by its key, which
is stable across tiles — equal keys weld by construction. -/
abbrev Name : Type := (Nat × Nat) ⊕ Nat

variable {α β : Type} [DecidableEq α] [Inhabited α]

instance (v : Name) (e : List Name) : Decidable (v ∈ e) :=
  decidable_of_iff (∃ u ∈ e, u = v) (by simp)

/-- The position of a name in a list (its first occurrence; total, used for
the emission index of a vertex). -/
def nameIdx : List Name → Name → Nat
  | [], _ => 0
  | a :: r, v => if a = v then 0 else nameIdx r v + 1

/-- The default mesh used to totalise list indexing. -/
def defaultMesh : KeyMesh α := ⟨default, [], [], []⟩

instance : Inhabited (KeyMesh α) := ⟨defaultMesh⟩

/-- The tile at a position of the input sequence. -/
def tileAt (l : List (KeyMesh α)) (t : Nat) : KeyMesh α := l.getD t defaultMesh

/-- The key of the j-th external vertex of a mesh. -/
def KeyMesh.keyAt (m : KeyMesh α) (j : Nat) : Nat := (m.externals.map Prod.fst).getD j 0

/-- Translate a triangle index of the tile at position `t` into a global
vertex name. -/
def resolve (t : Nat) (m : KeyMesh α) (i : Nat) : Name :=
  if i < m.internals.length then Sum.inl (t, i)
  else Sum.inr (m.keyAt (i - m.internals.length))

/-- Whether a triangle's indices are all in range (the HostKeyMesh
invariant). -/
def triWF (m : KeyMesh α) (tr : Nat × Nat × Nat) : Bool :=
  decide (tr.1 < m.internals.length + m.externals.length) &&
  decide (tr.2.1 < m.internals.length + m.externals.length) &&
  decide (tr.2.2 < m.internals.length + m.externals.length)

/-- The global names contributed by the tile at position `t`: its internals,
then the keys of its externals. -/
def tileNames (t : Nat) (m : KeyMesh α) : List Name :=
  (List.range m.internals.length).map (fun i => Sum.inl (t, i)) ++
    m.externals.map (fun e => Sum.inr e.1)

/-- Concatenate a per-tile contribution over the whole input sequence. -/
def overTiles (l : List (KeyMesh α)) (F : Nat → KeyMesh α → List β) : List β :=
  (List.range l.length).flatMap (fun t => F t (tileAt l t))

/-- All global names of a run, with multiplicity, in tile order. -/
def namesAll (l : List (KeyMesh α)) : List Name :=
  overTiles l (fun t m => tileNames t m)

/-- The set of distinct global vertices of a run. -/
def nameFinset (l : List (KeyMesh α)) : Finset Name := (namesAll l).toFinset

/-- The total number of distinct global vertices (N_total of the prune
rule). -/
def nTotal (l : List (KeyMesh α)) : Nat := (nameFinset l).card

/-- The three adjacency edges contributed by one triangle. -/
def triEdges (t : Nat) (m : KeyMesh α) (tr : Nat × Nat × Nat) : List (Name × Name) :=
  [(resolve t m tr.1, resolve t m tr.2.1), (resolve t m tr.2.1, resolve t m tr.2.2),
   (resolve t m tr.1, resolve t m tr.2.2)]

/-- The adjacency edges contributed by one tile's (well-formed) triangles. -/
def tileEdges (t : Nat) (m : KeyMesh α) : List (Name × Name) :=
  (m.triangles.filter (fun tr => triWF m tr)).flatMap (fun tr => triEdges t m tr)

/-- All adjacency edges of a run. -/
def edgesAll (l : List (KeyMesh α)) : List (Name × Name) :=
  overTiles l (fun t m => tileEdges t m)

/-- The clump/component partition of the run: the union-find of pass 1,
seeded with every global vertex and merged along every triangle edge. -/
def components (l : List (KeyMesh α)) : List (List Name) :=
  Partition.build (namesAll l) (edgesAll l)

/-- Whether two global vertices ended up in the same component. -/
def connB (l : List (KeyMesh α)) (a b : Name) : Bool :=
  Partition.sameG (components l) a b

/-- The global vertex count of the component of `v`. -/
def compCount (l : List (KeyMesh α)) (v : Name) : Nat :=
  ((nameFinset l).filter (fun u => connB l u v = true)).card

/-- The prune threshold in vertices: the truncation of τ · N_total, as the
reference model of the test suite computes it. -/
def threshold (l : List (KeyMesh α)) (τ : ℚ) : Nat :=
  (Int.floor (τ * (nTotal l : ℚ))).toNat

/-- Whether the component of `v` is retained under threshold τ. -/
def retainedB (l : List (KeyMesh α)) (τ : ℚ) (v : Name) : Bool :=
  decide (threshold l τ ≤ compCount l v)

/-- The names contributed to one chunk, with multiplicity, in tile order. -/
def chunkNames (l : List (KeyMesh α)) (cid : ChunkId) : List Name :=
  overTiles l (fun t m => if m.chunk = cid then tileNames t m else [])

/-- The vertices emitted to one chunk's output: each distinct retained global
vertex of the chunk exactly once (welding: one vertex per key). -/
def emitted (l : List (KeyMesh α)) (τ : ℚ) (cid : ChunkId) : List Name :=
  (chunkNames l cid).dedup.filter (fun v => retainedB l τ v)

/-- The world-space position of a global vertex (for a key, the position
recorded by the first tile contributing it; the HostKeyMesh invariant makes
every contribution agree). -/
def posOf (l : List (KeyMesh α)) : Name → α
  | Sum.inl (t, i) => (tileAt l t).internals.getD i default
  | Sum.inr k => ((l.flatMap (fun m => m.externals)).lookup k).getD default

/-- Whether a triangle is well-formed and all three of its vertices retained
(the three vertices of a triangle always share a component). -/
def retainedTriB (l : List (KeyMesh α)) (τ : ℚ) (t : Nat) (m : KeyMesh α)
    (tr : Nat × Nat × Nat) : Bool :=
  triWF m tr && retainedB l τ (resolve t m tr.1) && retainedB l τ (resolve t m tr.2.1) &&
    retainedB l τ (resolve t m tr.2.2)

/-- The retained triangles of one chunk as triples of global names, in tile
order. -/
def outNameTriples (l : List (KeyMesh α)) (τ : ℚ) (cid : ChunkId) :
    List (Name × Name × Name) :=
  overTiles l (fun t m =>
    if m.chunk = cid then
      (m.triangles.filter (fun tr => retainedTriB l τ t m tr)).map
        (fun tr => (resolve t m tr.1, resolve t m tr.2.1, resolve t m tr.2.2))
    else [])

/-- The output index assigned to a global vertex by the emission order. -/
def idxOf (l : List (KeyMesh α)) (τ : ℚ) (cid : ChunkId) (v : Name) : Nat :=
  nameIdx (emitted l τ cid) v

/-- A written output mesh: vertex positions and triangles over vertex
indices. -/
structure WrittenMesh (α : Type) where
  vertices : List α
  triangles : List (Nat × Nat × Nat)
deriving DecidableEq

/-- The mesh written for one chunk: the emitted vertices' positions, and the
retained triangles with names translated to emission indices. -/
def chunkMesh (l : List (KeyMesh α)) (τ : ℚ) (cid : ChunkId) : WrittenMesh α :=
  ⟨(emitted l τ cid).map (fun v => posOf l v),
   (outNameTriples l τ cid).map
     (fun T => (idxOf l τ cid T.1, idxOf l τ cid T.2.1, idxOf l τ cid T.2.2))⟩

/-- The chunks for which an output file is opened and written: exactly those
with a positive retained triangle count. -/
def writtenChunks (l : List (KeyMesh α)) (τ : ℚ) : List ChunkId :=
  ((l.map (fun m => m.chunk)).dedup).filter (fun cid => decide (outNameTriples l τ cid ≠ []))

/-- Request a chunk's output from the writer: `none` (not found) when no file
was written for it. -/
def getOutput (l : List (KeyMesh α)) (τ : ℚ) (cid : ChunkId) : Option (WrittenMesh α) :=
  if cid ∈ writtenChunks l τ then some (chunkMesh l τ cid) else none

/-- The three cyclic rotations of a triangle. -/
def rotations (t : Nat × Nat × Nat) : List (Nat × Nat × Nat) :=
  [t, (t.2.1, t.2.2, t.1), (t.2.2, t.1, t.2.1)]

/-- The rotation class of a triangle: the multiset of its three cyclic
rotations.  Two triangles are equal up to rotation (never reflection) iff
their classes coincide. -/
def rotClass (t : Nat × Nat × Nat) : Multiset (Nat × Nat × Nat) := (rotations t : List _)

/-- Rename all three indices of a triangle. -/
def triMap (g : Nat → Nat) (t : Nat × Nat × Nat) : Nat × Nat × Nat :=
  (g t.1, g t.2.1, g t.2.2)

/-- Mesh isomorphism in the sense of the test suite's checkIsomorphic: a
renaming of vertex indices that matches positions, under which the multisets
of triangles agree up to cyclic rotation of each triangle (reflections change
the rotation class and are not allowed). -/
def MeshIso (w1 w2 : WrittenMesh α) : Prop :=
  w1.vertices.length = w2.vertices.length ∧
  ∃ g : Nat → Nat,
    (∀ i, i < w1.vertices.length → g i < w2.vertices.length) ∧
    (∀ i, i < w1.vertices.length → ∀ j, j < w1.vertices.length → g i = g j → i = j) ∧
    (∀ i, i < w1.vertices.length → w2.vertices.getD (g i) default = w1.vertices.getD i default) ∧
    ((w1.triangles.map (fun t => rotClass (triMap g t)) : Multiset (Multiset (Nat × Nat × Nat))) =
      (w2.triangles.map (fun t => rotClass t) : List (Multiset (Nat × Nat × Nat))))

/-- Isomorphism of optional outputs: both absent, or both present and
isomorphic. -/
def OptIso : Option (WrittenMesh α) → Option (WrittenMesh α) → Prop
  | none, none => True
  | some w1, some w2 => MeshIso w1 w2
  | _, _ => False

/-! ### The reference scenarios of the test suite

Vertex positions are integer triples (every coordinate in the reference data
is a small integer, exactly representable as a float). -/

/-- Vertex positions of the reference scenarios. -/
abbrev V3 : Type := Int × Int × Int

/-- The single chunk used by the unchunked scenarios. -/
def chunk0 : ChunkId := ⟨0, (0, 0, 0)⟩

/-- The four tiles of TestMesherBase::testWeld: internal vertices 0-4 of tile
0, external keys {0, 2^63, 1, 2^63+1} of tile 1, internals plus keys
{0x1234567812345678, 0x12345678} of tile 2, and tile 3 sharing keys with
tiles 1 and 2. -/
def weldTiles : List (KeyMesh V3) :=
  [⟨chunk0, [(0,0,1), (0,0,2), (0,0,3), (0,0,4), (0,0,5)], [],
    [(0,1,3), (1,2,3), (3,4,0)]⟩,
   ⟨chunk0, [],
    [(0, (1,0,1)), (0x8000000000000000, (1,0,2)), (1, (1,0,3)), (0x8000000000000001, (1,0,4))],
    [(0,1,3), (1,2,3), (2,0,3)]⟩,
   ⟨chunk0, [(0,1,0), (0,2,0), (0,3,0)],
    [(0x1234567812345678, (2,0,1)), (0x12345678, (2,0,2))],
    [(0,1,3), (1,4,3), (2,3,4), (0,2,4), (0,3,2)]⟩,
   ⟨chunk0, [(3,3,3)],
    [(100, (4,5,6)), (0x8000000000000000, (1,0,2)), (1, (1,0,3)), (0x12345678, (2,0,2))],
    [(0,2,1), (1,2,4), (4,2,3)]⟩]

/-- The mesh the model writes for the weld scenario. -/
def weldModel : WrittenMesh V3 :=
  ⟨[(0,0,1), (0,0,2), (0,0,3), (0,0,4), (0,0,5), (1,0,1), (1,0,4), (0,1,0), (0,2,0), (0,3,0),
    (2,0,1), (3,3,3), (4,5,6), (1,0,2), (1,0,3), (2,0,2)],
   [(0,1,3), (1,2,3), (3,4,0), (5,13,6), (13,14,6), (14,5,6), (7,8,10), (8,15,10), (9,10,15),
    (7,9,15), (7,10,9), (11,13,12), (12,13,15), (15,13,14)]⟩

/-- The reference mesh of TestMesherBase::testWeld: 16 expected vertices and
14 expected triangles. -/
def weldReference : WrittenMesh V3 :=
  ⟨[(0,0,1), (0,0,2), (0,0,3), (0,0,4), (0,0,5), (1,0,1), (1,0,2), (1,0,3), (1,0,4), (0,1,0),
    (0,2,0), (0,3,0), (2,0,1), (2,0,2), (3,3,3), (4,5,6)],
   [(0,1,3), (1,2,3), (3,4,0), (5,6,8), (6,7,8), (7,5,8), (9,10,12), (10,13,12), (11,12,13),
    (9,11,13), (9,12,11), (14,6,15), (15,6,13), (13,6,7)]⟩

/-- The four tiles of TestMesherBase::testPrune: components A (5 vertices in
tile 0), B (6 in tile 1), C (5 split over tiles 1 and 3), D (6 split over all
four tiles); external keys 0x22-0x34 as in the test. -/
def pruneTiles : List (KeyMesh V3) :=
  [⟨chunk0, [(0,0,0), (1,0,0), (2,0,0), (3,0,0), (4,0,0)],
    [(0x30, (0,3,0)), (0x31, (1,3,0)), (0x32, (2,3,0))],
    [(0,4,1), (1,4,2), (2,4,3), (5,7,6)]⟩,
   ⟨chunk0, [(0,1,0), (1,1,0), (2,1,0), (3,1,0), (4,1,0), (5,1,0), (0,2,0), (3,2,0)],
    [(0x22, (2,2,0)), (0x24, (4,2,0)), (0x30, (0,3,0)), (0x32, (2,3,0)), (0x34, (4,3,0))],
    [(0,5,1), (1,5,2), (2,5,3), (3,5,4), (6,7,9), (9,7,8), (10,12,11)]⟩,
   ⟨chunk0, [],
    [(0x31, (1,3,0)), (0x32, (2,3,0)), (0x33, (3,3,0))],
    [(0,1,2)]⟩,
   ⟨chunk0, [(1,2,0), (5,3,0)],
    [(0x22, (2,2,0)), (0x33, (3,3,0)), (0x24, (4,2,0)), (0x34, (4,3,0)), (0x32, (2,3,0))],
    [(6,5,3), (4,2,0), (3,5,1)]⟩]

/-! ### Evaluation lemmas for the reference scenarios -/

theorem weld_nTotal : nTotal weldTiles = 16 := by decide

theorem weld_threshold : threshold weldTiles 0 = 0 := by
  rw [threshold, weld_nTotal]
  norm_num

theorem weld_retained : retainedB weldTiles 0 = fun _ => true := by
  funext v
  rw [retainedB, weld_threshold]
  simp

set_option maxRecDepth 100000 in
set_option maxHeartbeats 1000000 in
theorem weld_emitted : emitted weldTiles 0 chunk0 =
    [Sum.inl (0, 0), Sum.inl (0, 1), Sum.inl (0, 2), Sum.inl (0, 3), Sum.inl (0, 4),
     Sum.inr 0, Sum.inr 0x8000000000000001, Sum.inl (2, 0), Sum.inl (2, 1), Sum.inl (2, 2),
     Sum.inr 0x1234567812345678, Sum.inl (3, 0), Sum.inr 100, Sum.inr 0x8000000000000000,
     Sum.inr 1, Sum.inr 0x12345678] := by
  rw [emitted]
  simp only [weld_retained]
  decide

set_option maxRecDepth 100000 in
set_option maxHeartbeats 4000000 in
theorem weld_out : getOutput weldTiles 0 chunk0 = some weldModel := by
  rw [getOutput, writtenChunks, chunkMesh]
  simp only [outNameTriples, retainedTriB, weld_retained, idxOf, weld_emitted]
  decide

set_option maxRecDepth 100000 in
set_option maxHeartbeats 1000000 in
theorem prune_components : components pruneTiles =
    [[Sum.inr 0x30, Sum.inr 0x32, Sum.inr 0x31, Sum.inr 0x34, Sum.inr 0x33, Sum.inl (3, 1)],
     [Sum.inl (1, 6), Sum.inl (1, 7), Sum.inr 0x24, Sum.inr 0x22, Sum.inl (3, 0)],
     [Sum.inl (1, 0), Sum.inl (1, 5), Sum.inl (1, 1), Sum.inl (1, 2), Sum.inl (1, 3),
      Sum.inl (1, 4)],
     [Sum.inl (0, 0), Sum.inl (0, 4), Sum.inl (0, 1), Sum.inl (0, 2), Sum.inl (0, 3)]] := by
  decide

theorem prune_nTotal : nTotal pruneTiles = 22 := by decide

theorem prune_threshold : threshold pruneTiles (13/44) = 6 := by
  rw [threshold, prune_nTotal]
  norm_num
  decide

theorem prune_retained : retainedB pruneTiles (13/44) =
    fun v => decide (6 ≤ ((nameFinset pruneTiles).filter
      (fun u => Partition.sameG (components pruneTiles) u v = true)).card) := by
  funext v
  rw [retainedB, prune_threshold, compCount]
  simp only [connB]

set_option maxRecDepth 100000 in
set_option maxHeartbeats 1000000 in
theorem prune_emitted : emitted pruneTiles (13/44) chunk0 =
    [Sum.inl (1, 0), Sum.inl (1, 1), Sum.inl (1, 2), Sum.inl (1, 3), Sum.inl (1, 4),
     Sum.inl (1, 5), Sum.inr 0x30, Sum.inr 0x31, Sum.inl (3, 1), Sum.inr 0x33,
     Sum.inr 0x34, Sum.inr 0x32] := by
  rw [emitted, prune_retained]
  simp only [prune_components]
  decide

set_option maxRecDepth 100000 in
set_option maxHeartbeats 4000000 in
theorem prune_out : chunkMesh pruneTiles (13/44) chunk0 =
    ⟨[(0,1,0), (1,1,0), (2,1,0), (3,1,0), (4,1,0), (5,1,0), (0,3,0), (1,3,0), (5,3,0),
      (3,3,0), (4,3,0), (2,3,0)],
     [(6,11,7), (0,5,1), (1,5,2), (2,5,3), (3,5,4), (6,10,11), (7,11,9), (11,10,9),
      (9,10,8)]⟩ := by
  rw [chunkMesh]
  simp only [outNameTriples, retainedTriB, prune_retained, idxOf, prune_emitted,
    prune_components]
  decide

/-! ### Structural lemmas about the mesher model -/

theorem mem_overTiles {l : List (KeyMesh α)} {F : Nat → KeyMesh α → List β} {b : β} :
    b ∈ overTiles l F ↔ ∃ t, t < l.length ∧ b ∈ F t (tileAt l t) := by
  simp [overTiles]

theorem threshold_zero (l : List (KeyMesh α)) : threshold l 0 = 0 := by
  rw [threshold]
  norm_num

theorem retainedB_zero (l : List (KeyMesh α)) (v : Name) : retainedB l 0 v = true := by
  rw [retainedB, threshold_zero]
  simp

theorem emitted_nodup (l : List (KeyMesh α)) (τ : ℚ) (cid : ChunkId) :
    (emitted l τ cid).Nodup := (List.nodup_dedup _).filter _

theorem mem_emitted {l : List (KeyMesh α)} {τ : ℚ} {cid : ChunkId} {v : Name} :
    v ∈ emitted l τ cid ↔ v ∈ chunkNames l cid ∧ retainedB l τ v = true := by
  simp [emitted, List.mem_filter, List.mem_dedup]

theorem nameIdx_lt {e : List Name} {v : Name} (h : v ∈ e) : nameIdx e v < e.length := by
  induction e with
  | nil => cases h
  | cons a r ih =>
    simp only [nameIdx]
    split
    · simp
    · next hne =>
      have h' : v ∈ r := by
        rcases List.mem_cons.mp h with rfl | h'
        · exact absurd rfl hne
        · exact h'
      simpa using ih h'

theorem map_getD_nameIdx {e : List Name} {f : Name → α} {v : Name} (h : v ∈ e) (d : α) :
    (e.map f).getD (nameIdx e v) d = f v := by
  induction e with
  | nil => cases h
  | cons a r ih =>
    simp only [nameIdx, List.map]
    split
    · next he => simp [he]
    · next hne =>
      have h' : v ∈ r := by
        rcases List.mem_cons.mp h with rfl | h'
        · exact absurd rfl hne
        · exact h'
      simpa using ih h'

theorem nameIdx_inj {e : List Name} {u v : Name} (hu : u ∈ e) (hv : v ∈ e)
    (h : nameIdx e u = nameIdx e v) : u = v := by
  induction e with
  | nil => cases hu
  | cons a r ih =>
    simp only [nameIdx] at h
    by_cases hau : a = u <;> by_cases hav : a = v
    · exact hau ▸ hav
    · rw [if_pos hau, if_neg hav] at h
      omega
    · rw [if_neg hau, if_pos hav] at h
      omega
    · rw [if_neg hau, if_neg hav] at h
      have hu' : u ∈ r := by
        rcases List.mem_cons.mp hu with rfl | h'
        · exact absurd rfl hau
        · exact h'
      have hv' : v ∈ r := by
        rcases List.mem_cons.mp hv with rfl | h'
        · exact absurd rfl hav
        · exact h'
      exact ih hu' hv' (by omega)

theorem countP_eq_one_of_nodup {e : List Name} {v : Name} (hn : e.Nodup) (h : v ∈ e) :
    e.countP (fun u => decide (u = v)) = 1 := by
  induction e with
  | nil => cases h
  | cons a r ih =>
    rw [List.countP_cons]
    rcases List.mem_cons.mp h with rfl | h'
    · have hnot : v ∉ r := (List.nodup_cons.mp hn).1
      rw [List.countP_eq_zero.mpr ?_]
      · simp
      · intro u hu
        simp only [decide_eq_true_eq]
        rintro rfl
        exact absurd hu hnot
    · have ha : ¬(a = v) := by
        rintro rfl
        exact absurd h' (List.nodup_cons.mp hn).1
      rw [ih (List.nodup_cons.mp hn).2 h']
      simp [ha]

/-- The weld scenario's output is isomorphic to the reference mesh of
testWeld: renumber the model's vertex indices into the reference's. -/
theorem weld_iso : MeshIso weldModel weldReference := by
  refine ⟨by decide, fun i => [0,1,2,3,4,5,8,9,10,11,12,14,15,6,7,13].getD i 0,
    by decide, by decide, by decide, by decide⟩

end Mlsgpu.Mesher

namespace Mlsgpu.Mesher

variable {α β : Type} [DecidableEq α] [Inhabited α]

/-- C1: external vertices with equal keys weld to one output vertex.  For a
key contributed by two distinct tiles of a chunk, the written output contains
exactly one vertex for that key (the emission list, which is duplicate-free,
lists the key's name once); the vertex written at the key's output index
carries the key's world position; every retained well-formed triangle of the
chunk is written with each corner translated to the output index of its
global name — so every triangle slot that referenced the key points to that
single vertex.  On the four-tile reference scenario the written output is
`weldModel`, with exactly 16 unique vertices and 14 triangles, isomorphic to
the reference mesh. -/
theorem C1_weld (l : List (KeyMesh α)) (cid : ChunkId) (k t1 t2 : Nat)
    (h1 : t1 < l.length) (h2 : t2 < l.length) (hne : t1 ≠ t2)
    (hc1 : (tileAt l t1).chunk = cid)
    (hk1 : k ∈ (tileAt l t1).externals.map Prod.fst)
    (hk2 : k ∈ (tileAt l t2).externals.map Prod.fst) :
    (emitted l 0 cid).countP (fun u => decide (u = Sum.inr k)) = 1 ∧
    (chunkMesh l 0 cid).vertices.getD (idxOf l 0 cid (Sum.inr k)) default =
      posOf l (Sum.inr k) ∧
    (∀ t, t < l.length → (tileAt l t).chunk = cid →
      ∀ tr ∈ (tileAt l t).triangles, retainedTriB l 0 t (tileAt l t) tr = true →
        (idxOf l 0 cid (resolve t (tileAt l t) tr.1),
         idxOf l 0 cid (resolve t (tileAt l t) tr.2.1),
         idxOf l 0 cid (resolve t (tileAt l t) tr.2.2)) ∈ (chunkMesh l 0 cid).triangles) ∧
    getOutput weldTiles 0 chunk0 = some weldModel ∧
    weldModel.vertices.length = 16 ∧ weldModel.triangles.length = 14 ∧
    MeshIso weldModel weldReference := by
  have hkey : Sum.inr k ∈ tileNames t1 (tileAt l t1) := by
    rw [tileNames]
    refine List.mem_append.mpr (Or.inr ?_)
    obtain ⟨e, he, hek⟩ := List.mem_map.mp hk1
    exact List.mem_map.mpr ⟨e, he, by rw [hek]⟩
  have hmem : Sum.inr k ∈ emitted l 0 cid := by
    rw [mem_emitted]
    refine ⟨?_, retainedB_zero l _⟩
    rw [chunkNames, mem_overTiles]
    exact ⟨t1, h1, by rw [if_pos hc1]; exact hkey⟩
  refine ⟨countP_eq_one_of_nodup (emitted_nodup l 0 cid) hmem, ?_, ?_, weld_out,
    by decide, by decide, weld_iso⟩
  · rw [chunkMesh, idxOf]
    exact map_getD_nameIdx hmem default
  · intro t ht hchunk tr htr hret
    have hT : (resolve t (tileAt l t) tr.1, resolve t (tileAt l t) tr.2.1,
        resolve t (tileAt l t) tr.2.2) ∈ outNameTriples l 0 cid := by
      rw [outNameTriples, mem_overTiles]
      refine ⟨t, ht, ?_⟩
      rw [if_pos hchunk]
      exact List.mem_map.mpr ⟨tr, List.mem_filter.mpr ⟨htr, hret⟩, rfl⟩
    rw [chunkMesh]
    exact List.mem_map.mpr ⟨_, hT, rfl⟩

/-- C1, witness: the shared key 2^63 of weld tiles 1 and 3. -/
theorem C1_weld_witness :
    (emitted weldTiles 0 chunk0).countP (fun u => decide (u = Sum.inr 0x8000000000000000)) = 1 ∧
    (chunkMesh weldTiles 0 chunk0).vertices.getD
      (idxOf weldTiles 0 chunk0 (Sum.inr 0x8000000000000000)) default =
      posOf weldTiles (Sum.inr 0x8000000000000000) ∧
    (∀ t, t < weldTiles.length → (tileAt weldTiles t).chunk = chunk0 →
      ∀ tr ∈ (tileAt weldTiles t).triangles,
        retainedTriB weldTiles 0 t (tileAt weldTiles t) tr = true →
        (idxOf weldTiles 0 chunk0 (resolve t (tileAt weldTiles t) tr.1),
         idxOf weldTiles 0 chunk0 (resolve t (tileAt weldTiles t) tr.2.1),
         idxOf weldTiles 0 chunk0 (resolve t (tileAt weldTiles t) tr.2.2)) ∈
          (chunkMesh weldTiles 0 chunk0).triangles) ∧
    getOutput weldTiles 0 chunk0 = some weldModel ∧
    weldModel.vertices.length = 16 ∧ weldModel.triangles.length = 14 ∧
    MeshIso weldModel weldReference :=
  C1_weld weldTiles chunk0 0x8000000000000000 1 3 (by decide) (by decide) (by decide)
    (by decide) (by decide) (by decide)

/-- C2, counterexample: in the prune reference scenario (22 global vertices,
threshold 6.5/22), component B of 6 vertices is retained in the written
output, but 6 < 7 = the ceiling of τ · N_total that the claim requires. -/
theorem C2_prune_counterexample :
    Sum.inl (1, 0) ∈ emitted pruneTiles (13/44) chunk0 ∧
    compCount pruneTiles (Sum.inl (1, 0)) = 6 ∧
    nTotal pruneTiles = 22 ∧
    Nat.ceil ((13/44 : ℚ) * (22 : ℚ)) = 7 ∧
    ¬(7 ≤ 6) := by
  refine ⟨prune_emitted ▸ List.mem_cons_self _ _, ?_, prune_nTotal, ?_, by decide⟩
  · simp only [compCount, connB, prune_components]
    decide
  · rw [show ((13 : ℚ)/44) * 22 = 13/2 by norm_num]
    rw [Nat.ceil_eq_iff (by norm_num)]
    norm_num

/-- C2, amended: a global vertex appears in the written output of its chunk
iff it occurs in that chunk and the global vertex count of its welded
component is at least the truncation of τ · N_total (so τ = 0 retains
everything); in the prune reference scenario with τ = 6.5/22 the output has
exactly the 12 vertices and 9 triangles of components B and D, including the
component D that is split across tiles with undersized clumps. -/
theorem C2_prune_amended (l : List (KeyMesh α)) (τ : ℚ) (cid : ChunkId) (v : Name) :
    (v ∈ emitted l τ cid ↔ v ∈ (chunkNames l cid).dedup ∧ threshold l τ ≤ compCount l v) ∧
    (chunkMesh pruneTiles (13/44) chunk0).vertices.length = 12 ∧
    (chunkMesh pruneTiles (13/44) chunk0).triangles.length = 9 := by
  refine ⟨?_, by rw [prune_out]; decide, by rw [prune_out]; decide⟩
  simp [emitted, List.mem_filter, retainedB]

/-- C9: a chunk whose retained triangle count after welding and pruning is
zero is not opened (it is absent from the list of written chunks) and
requesting its output reports not found; in particular an input dataset
producing an empty mesh writes no file. -/
theorem C9_empty_chunks (l : List (KeyMesh α)) (τ : ℚ) (cid : ChunkId)
    (h : outNameTriples l τ cid = []) :
    cid ∉ writtenChunks l τ ∧ getOutput l τ cid = none ∧
    getOutput ([⟨chunk0, [], [], []⟩] : List (KeyMesh V3)) 0 chunk0 = none := by
  have hnot : cid ∉ writtenChunks l τ := by
    intro hmem
    rw [writtenChunks] at hmem
    have := (List.mem_filter.mp hmem).2
    simp [h] at this
  exact ⟨hnot, by rw [getOutput, if_neg hnot], by decide⟩

/-- C9, witness: the empty-mesh input itself. -/
theorem C9_empty_chunks_witness :
    chunk0 ∉ writtenChunks ([⟨chunk0, [], [], []⟩] : List (KeyMesh V3)) 0 ∧
    getOutput ([⟨chunk0, [], [], []⟩] : List (KeyMesh V3)) 0 chunk0 = none ∧
    getOutput ([⟨chunk0, [], [], []⟩] : List (KeyMesh V3)) 0 chunk0 = none :=
  C9_empty_chunks ([⟨chunk0, [], [], []⟩] : List (KeyMesh V3)) 0 chunk0 (by decide)

end Mlsgpu.Mesher

/-! ## Order independence of the mesher

Modelled from the spec: the mesher makes no assumption on the arrival order
of tiles.  A reordering of the input sequence is a permutation `σ` of the
tile positions: the tile at position `t` of the permuted run is the tile at
position `σ t` of the original run.  Internal vertex names carry their tile
position, so the renaming `renName` (the identity on external keys)
translates the global vertex names of one run into those of the other. -/

namespace Mlsgpu.Mesher

variable {α β : Type} [DecidableEq α] [Inhabited α]

/-- The input sequence reordered by a permutation of its positions. -/
def permute (l : List (KeyMesh α)) (σ : Equiv.Perm (Fin l.length)) : List (KeyMesh α) :=
  List.ofFn (fun t => l.get (σ t))

/-- A permutation of `Fin n` extended to all of `ℕ`, as the identity above
`n`. -/
def natPerm (n : Nat) (π : Equiv.Perm (Fin n)) (s : Nat) : Nat :=
  if h : s < n then (π ⟨s, h⟩ : ℕ) else s

/-- Rename global vertex names along a tile-position permutation: internal
names move with their tile, external keys are untouched (welding is by
key). -/
def renName (n : Nat) (π : Equiv.Perm (Fin n)) : Name → Name
  | Sum.inl (s, i) => Sum.inl (natPerm n π s, i)
  | Sum.inr k => Sum.inr k

/-- The HostKeyMesh invariant of the spec: every key appearing in two
meshes of a run denotes the same world-space vertex. -/
def KeyConsistent (l : List (KeyMesh α)) : Prop :=
  ∀ m1 ∈ l, ∀ m2 ∈ l, ∀ e1 ∈ m1.externals, ∀ e2 ∈ m2.externals,
    e1.1 = e2.1 → e1.2 = e2.2

theorem natPerm_coe {n : Nat} (π : Equiv.Perm (Fin n)) (u : Fin n) :
    natPerm n π (u : ℕ) = (π u : ℕ) := by
  rw [natPerm, dif_pos u.isLt, Fin.eta]

theorem natPerm_left {n : Nat} (π : Equiv.Perm (Fin n)) (s : Nat) :
    natPerm n π.symm (natPerm n π s) = s := by
  unfold natPerm
  by_cases h : s < n
  · rw [dif_pos h, dif_pos (π ⟨s, h⟩).isLt]
    simp
  · rw [dif_neg h, dif_neg h]

theorem natPerm_right {n : Nat} (π : Equiv.Perm (Fin n)) (s : Nat) :
    natPerm n π (natPerm n π.symm s) = s := by
  unfold natPerm
  by_cases h : s < n
  · rw [dif_pos h, dif_pos (π.symm ⟨s, h⟩).isLt]
    simp
  · rw [dif_neg h, dif_neg h]

theorem renName_left {n : Nat} (π : Equiv.Perm (Fin n)) (v : Name) :
    renName n π.symm (renName n π v) = v := by
  match v with
  | Sum.inl (s, i) => simp [renName, natPerm_left]
  | Sum.inr k => rfl

theorem renName_right {n : Nat} (π : Equiv.Perm (Fin n)) (v : Name) :
    renName n π (renName n π.symm v) = v := by
  match v with
  | Sum.inl (s, i) => simp [renName, natPerm_right]
  | Sum.inr k => rfl

theorem renName_inj {n : Nat} (π : Equiv.Perm (Fin n)) :
    Function.Injective (renName n π) :=
  Function.LeftInverse.injective (g := renName n π.symm) (renName_left π)

theorem length_permute (l : List (KeyMesh α)) (σ : Equiv.Perm (Fin l.length)) :
    (permute l σ).length = l.length := by
  simp [permute]

theorem tileAt_get (l : List (KeyMesh α)) (s : Fin l.length) :
    tileAt l (s : ℕ) = l.get s := by
  rw [tileAt, List.getD_eq_getElem _ _ s.isLt, List.get_eq_getElem]

theorem tileAt_default (l : List (KeyMesh α)) {s : Nat} (h : l.length ≤ s) :
    tileAt l s = defaultMesh := by
  rw [tileAt, List.getD_eq_default _ _ h]

theorem tileAt_permute (l : List (KeyMesh α)) (σ : Equiv.Perm (Fin l.length))
    (t : Fin l.length) :
    tileAt (permute l σ) (t : ℕ) = l.get (σ t) := by
  rw [tileAt, List.getD_eq_getElem _ _ (by rw [length_permute]; exact t.isLt)]
  simp [permute]

theorem mem_permute {l : List (KeyMesh α)} {σ : Equiv.Perm (Fin l.length)}
    {m : KeyMesh α} :
    m ∈ permute l σ ↔ m ∈ l := by
  rw [permute, List.mem_ofFn]
  constructor
  · rintro ⟨t, rfl⟩
    show l.get (σ t) ∈ l
    exact List.get_mem l _ _
  · intro hm
    obtain ⟨u, hu⟩ := List.mem_iff_get.mp hm
    refine ⟨σ.symm u, ?_⟩
    show l.get (σ (σ.symm u)) = m
    rw [Equiv.apply_symm_apply]
    exact hu

theorem coe_flatMap {γ δ : Type} (xs : List γ) (f : γ → List δ) :
    ((xs.flatMap f : List δ) : Multiset δ) =
      ((xs.map fun a => ((f a : List δ) : Multiset δ)).sum) := by
  induction xs with
  | nil => rfl
  | cons a r ih => rw [List.flatMap_cons, ← Multiset.coe_add, ih, List.map_cons, List.sum_cons]

theorem overTiles_coe (l : List (KeyMesh α)) (F : Nat → KeyMesh α → List β) :
    ((overTiles l F : List β) : Multiset β) =
      ∑ t ∈ Finset.range l.length, ((F t (tileAt l t) : List β) : Multiset β) := by
  rw [overTiles, coe_flatMap, Finset.sum_eq_multiset_sum, Finset.range_val,
    ← Multiset.coe_range, Multiset.map_coe, Multiset.sum_coe]

theorem overTiles_permute_map (l : List (KeyMesh α)) (σ : Equiv.Perm (Fin l.length))
    (F G : Nat → KeyMesh α → List β) (f : β → β)
    (h : ∀ u : Fin l.length,
      G ((σ.symm u : Fin l.length) : ℕ) (l.get u) = (F (u : ℕ) (l.get u)).map f) :
    ((overTiles (permute l σ) G : List β) : Multiset β) =
      Multiset.map f ((overTiles l F : List β) : Multiset β) := by
  rw [overTiles_coe, overTiles_coe, length_permute,
    Finset.sum_range (fun t => ((G t (tileAt (permute l σ) t) : List β) : Multiset β)),
    Finset.sum_range (fun t => ((F t (tileAt l t) : List β) : Multiset β))]
  calc (∑ t : Fin l.length, ((G (t : ℕ) (tileAt (permute l σ) (t : ℕ)) : List β) : Multiset β))
      = ∑ t : Fin l.length, ((G (t : ℕ) (l.get (σ t)) : List β) : Multiset β) := by
        refine Finset.sum_congr rfl fun t _ => ?_
        rw [tileAt_permute]
    _ = ∑ t : Fin l.length,
          (fun u : Fin l.length =>
            ((G ((σ.symm u : Fin l.length) : ℕ) (l.get u) : List β) : Multiset β)) (σ t) := by
        refine Finset.sum_congr rfl fun t _ => ?_
        show _ = ((G ((σ.symm (σ t) : Fin l.length) : ℕ) (l.get (σ t)) : List β) : Multiset β)
        rw [Equiv.symm_apply_apply]
    _ = ∑ u : Fin l.length,
          ((G ((σ.symm u : Fin l.length) : ℕ) (l.get u) : List β) : Multiset β) :=
        Equiv.sum_comp σ (fun u : Fin l.length =>
          ((G ((σ.symm u : Fin l.length) : ℕ) (l.get u) : List β) : Multiset β))
    _ = ∑ u : Fin l.length, Multiset.map f ((F (u : ℕ) (l.get u) : List β) : Multiset β) := by
        refine Finset.sum_congr rfl fun u _ => ?_
        rw [h u, Multiset.map_coe]
    _ = Multiset.map f
          (∑ u : Fin l.length, ((F (u : ℕ) (tileAt l (u : ℕ)) : List β) : Multiset β)) := by
        have h2 : (∑ u : Fin l.length, ((F (u : ℕ) (tileAt l (u : ℕ)) : List β) : Multiset β))
            = ∑ u : Fin l.length, ((F (u : ℕ) (l.get u) : List β) : Multiset β) :=
          Finset.sum_congr rfl fun u _ => by rw [tileAt_get]
        rw [h2]
        exact (map_sum (Multiset.mapAddMonoidHom f)
          (fun u : Fin l.length => ((F (u : ℕ) (l.get u) : List β) : Multiset β))
          Finset.univ).symm

theorem tileNames_ren {n : Nat} (σ : Equiv.Perm (Fin n)) (u : Fin n) (m : KeyMesh α) :
    tileNames ((σ.symm u : Fin n) : ℕ) m =
      (tileNames (u : ℕ) m).map (renName n σ.symm) := by
  simp only [tileNames, List.map_append, List.map_map]
  congr 1
  refine List.map_congr_left fun i _ => ?_
  show _ = renName n σ.symm (Sum.inl ((u : ℕ), i))
  rw [renName, natPerm_coe]

theorem resolve_ren {n : Nat} (σ : Equiv.Perm (Fin n)) (u : Fin n) (m : KeyMesh α)
    (i : Nat) :
    resolve ((σ.symm u : Fin n) : ℕ) m i = renName n σ.symm (resolve (u : ℕ) m i) := by
  rw [resolve, resolve]
  split_ifs
  · show _ = renName n σ.symm (Sum.inl ((u : ℕ), i))
    rw [renName, natPerm_coe]
  · rfl

theorem triEdges_ren {n : Nat} (σ : Equiv.Perm (Fin n)) (u : Fin n) (m : KeyMesh α)
    (tr : Nat × Nat × Nat) :
    triEdges ((σ.symm u : Fin n) : ℕ) m tr =
      (triEdges (u : ℕ) m tr).map
        (Prod.map (renName n σ.symm) (renName n σ.symm)) := by
  simp [triEdges, resolve_ren, Prod.map]

theorem tileEdges_ren {n : Nat} (σ : Equiv.Perm (Fin n)) (u : Fin n) (m : KeyMesh α) :
    tileEdges ((σ.symm u : Fin n) : ℕ) m =
      (tileEdges (u : ℕ) m).map
        (Prod.map (renName n σ.symm) (renName n σ.symm)) := by
  rw [tileEdges, tileEdges, List.map_flatMap]
  simp only [triEdges_ren]

theorem namesAll_permute (l : List (KeyMesh α)) (σ : Equiv.Perm (Fin l.length)) :
    ((namesAll (permute l σ) : List Name) : Multiset Name) =
      Multiset.map (renName l.length σ.symm) ((namesAll l : List Name) : Multiset Name) := by
  rw [namesAll, namesAll]
  exact overTiles_permute_map l σ _ _ _ (fun u => tileNames_ren σ u (l.get u))

theorem edgesAll_permute (l : List (KeyMesh α)) (σ : Equiv.Perm (Fin l.length)) :
    ((edgesAll (permute l σ) : List (Name × Name)) : Multiset (Name × Name)) =
      Multiset.map (Prod.map (renName l.length σ.symm) (renName l.length σ.symm))
        ((edgesAll l : List (Name × Name)) : Multiset (Name × Name)) := by
  rw [edgesAll, edgesAll]
  exact overTiles_permute_map l σ _ _ _ (fun u => tileEdges_ren σ u (l.get u))

theorem mem_namesAll_permute (l : List (KeyMesh α)) (σ : Equiv.Perm (Fin l.length))
    (v : Name) :
    renName l.length σ.symm v ∈ namesAll (permute l σ) ↔ v ∈ namesAll l := by
  rw [← Multiset.mem_coe, namesAll_permute, Multiset.mem_map]
  constructor
  · rintro ⟨u, hu, he⟩
    rw [← renName_inj σ.symm he]
    exact Multiset.mem_coe.mp hu
  · exact fun hv => ⟨v, Multiset.mem_coe.mpr hv, rfl⟩

theorem mem_edgesAll_permute (l : List (KeyMesh α)) (σ : Equiv.Perm (Fin l.length))
    (u v : Name) :
    (renName l.length σ.symm u, renName l.length σ.symm v) ∈ edgesAll (permute l σ) ↔
      (u, v) ∈ edgesAll l := by
  rw [← Multiset.mem_coe, edgesAll_permute, Multiset.mem_map]
  constructor
  · rintro ⟨⟨a, b⟩, hab, he⟩
    rw [Prod.map] at he
    obtain ⟨h1, h2⟩ := Prod.mk.injEq .. ▸ he
    rw [← renName_inj σ.symm h1, ← renName_inj σ.symm h2]
    exact Multiset.mem_coe.mp hab
  · exact fun h => ⟨(u, v), Multiset.mem_coe.mpr h, rfl⟩

theorem resolve_mem_tileNames (t : Nat) (m : KeyMesh α) {i : Nat}
    (h : i < m.internals.length + m.externals.length) :
    resolve t m i ∈ tileNames t m := by
  rw [resolve, tileNames]
  split_ifs with hi
  · exact List.mem_append.mpr (Or.inl (List.mem_map.mpr ⟨i, List.mem_range.mpr hi, rfl⟩))
  · refine List.mem_append.mpr (Or.inr ?_)
    have hj : i - m.internals.length < m.externals.length := by omega
    rw [KeyMesh.keyAt, List.getD_eq_getElem _ _ (by simpa using hj), List.getElem_map]
    exact List.mem_map.mpr ⟨m.externals[i - m.internals.length], List.getElem_mem _, rfl⟩

theorem edgesAll_closure (l : List (KeyMesh α)) :
    ∀ e ∈ edgesAll l, e.1 ∈ namesAll l ∧ e.2 ∈ namesAll l := by
  intro e he
  rw [edgesAll] at he
  obtain ⟨t, ht, hte⟩ := mem_overTiles.mp he
  rw [tileEdges] at hte
  obtain ⟨tr, htr, he'⟩ := List.mem_flatMap.mp hte
  have hwf : triWF (tileAt l t) tr = true := (List.mem_filter.mp htr).2
  rw [triWF] at hwf
  simp only [Bool.and_eq_true, decide_eq_true_eq] at hwf
  have hmem : ∀ i, i < (tileAt l t).internals.length + (tileAt l t).externals.length →
      resolve t (tileAt l t) i ∈ namesAll l := by
    intro i hi
    rw [namesAll]
    exact mem_overTiles.mpr ⟨t, ht, resolve_mem_tileNames t _ hi⟩
  rw [triEdges] at he'
  simp only [List.mem_cons, List.not_mem_nil, or_false] at he'
  rcases he' with rfl | rfl | rfl
  · exact ⟨hmem _ hwf.1.1, hmem _ hwf.1.2⟩
  · exact ⟨hmem _ hwf.1.2, hmem _ hwf.2⟩
  · exact ⟨hmem _ hwf.1.1, hmem _ hwf.2⟩

theorem connB_iff (l : List (KeyMesh α)) (u v : Name) :
    connB l u v = true ↔
      u ∈ namesAll l ∧ v ∈ namesAll l ∧
        Relation.EqvGen (Partition.adj (edgesAll l)) u v := by
  rw [connB, Partition.sameG_iff, components,
    Partition.build_same _ _ (edgesAll_closure l)]

theorem eqvGen_map {γ δ : Type} (f : γ → δ) (r : γ → γ → Prop) (s : δ → δ → Prop)
    (h : ∀ a b, r a b → s (f a) (f b)) {x y : γ}
    (hxy : Relation.EqvGen r x y) : Relation.EqvGen s (f x) (f y) := by
  induction hxy with
  | rel a b hab => exact Relation.EqvGen.rel _ _ (h a b hab)
  | refl a => exact Relation.EqvGen.refl _
  | symm a b _ ih => exact Relation.EqvGen.symm _ _ ih
  | trans a b c _ _ ih1 ih2 => exact Relation.EqvGen.trans _ _ _ ih1 ih2

theorem adj_permute (l : List (KeyMesh α)) (σ : Equiv.Perm (Fin l.length)) (u v : Name) :
    Partition.adj (edgesAll (permute l σ))
      (renName l.length σ.symm u) (renName l.length σ.symm v) ↔
      Partition.adj (edgesAll l) u v := by
  rw [Partition.adj, Partition.adj, mem_edgesAll_permute, mem_edgesAll_permute]

theorem connB_permute (l : List (KeyMesh α)) (σ : Equiv.Perm (Fin l.length)) (u v : Name) :
    connB (permute l σ) (renName l.length σ.symm u) (renName l.length σ.symm v) =
      connB l u v := by
  have hiff : (connB (permute l σ) (renName l.length σ.symm u)
      (renName l.length σ.symm v) = true) ↔ (connB l u v = true) := by
    rw [connB_iff, connB_iff, mem_namesAll_permute, mem_namesAll_permute]
    refine and_congr_right fun _ => and_congr_right fun _ => ⟨fun h2 => ?_, fun h1 => ?_⟩
    · have := eqvGen_map (renName l.length σ) _
        (Partition.adj (edgesAll l)) (fun a b hab => ?_) h2
      · rwa [renName_right, renName_right] at this
      · have h3 : a = renName l.length σ.symm (renName l.length σ a) :=
          (renName_left σ a).symm
        have h4 : b = renName l.length σ.symm (renName l.length σ b) :=
          (renName_left σ b).symm
        rw [h3, h4] at hab
        exact (adj_permute l σ _ _).mp hab
    · exact eqvGen_map (renName l.length σ.symm) _ _
        (fun a b hab => (adj_permute l σ a b).mpr hab) h1
  cases h1 : connB (permute l σ) (renName l.length σ.symm u) (renName l.length σ.symm v) <;>
    cases h2 : connB l u v <;> simp_all

theorem nameFinset_permute (l : List (KeyMesh α)) (σ : Equiv.Perm (Fin l.length)) :
    nameFinset (permute l σ) = (nameFinset l).image (renName l.length σ.symm) := by
  ext v
  rw [nameFinset, nameFinset, List.mem_toFinset, Finset.mem_image]
  constructor
  · intro hv
    refine ⟨renName l.length σ v, ?_, renName_left σ v⟩
    rw [List.mem_toFinset, ← mem_namesAll_permute l σ, renName_left σ v]
    exact hv
  · rintro ⟨w, hw, rfl⟩
    exact (mem_namesAll_permute l σ w).mpr (List.mem_toFinset.mp hw)

theorem nTotal_permute (l : List (KeyMesh α)) (σ : Equiv.Perm (Fin l.length)) :
    nTotal (permute l σ) = nTotal l := by
  rw [nTotal, nTotal, nameFinset_permute,
    Finset.card_image_of_injective _ (renName_inj σ.symm)]

theorem compCount_permute (l : List (KeyMesh α)) (σ : Equiv.Perm (Fin l.length))
    (v : Name) :
    compCount (permute l σ) (renName l.length σ.symm v) = compCount l v := by
  rw [compCount, compCount, nameFinset_permute, Finset.filter_image,
    Finset.card_image_of_injective _ (renName_inj σ.symm)]
  congr 1
  refine Finset.filter_congr fun u _ => ?_
  rw [connB_permute]

theorem threshold_permute (l : List (KeyMesh α)) (σ : Equiv.Perm (Fin l.length))
    (τ : ℚ) :
    threshold (permute l σ) τ = threshold l τ := by
  rw [threshold, threshold, nTotal_permute]

theorem retainedB_permute (l : List (KeyMesh α)) (σ : Equiv.Perm (Fin l.length))
    (τ : ℚ) (v : Name) :
    retainedB (permute l σ) τ (renName l.length σ.symm v) = retainedB l τ v := by
  rw [retainedB, retainedB, threshold_permute, compCount_permute]

theorem retainedTriB_permute (l : List (KeyMesh α)) (σ : Equiv.Perm (Fin l.length))
    (τ : ℚ) (u : Fin l.length) (m : KeyMesh α) (tr : Nat × Nat × Nat) :
    retainedTriB (permute l σ) τ ((σ.symm u : Fin l.length) : ℕ) m tr =
      retainedTriB l τ (u : ℕ) m tr := by
  rw [retainedTriB, retainedTriB, resolve_ren, resolve_ren, resolve_ren,
    retainedB_permute, retainedB_permute, retainedB_permute]

theorem chunkNames_permute (l : List (KeyMesh α)) (σ : Equiv.Perm (Fin l.length))
    (cid : ChunkId) :
    ((chunkNames (permute l σ) cid : List Name) : Multiset Name) =
      Multiset.map (renName l.length σ.symm)
        ((chunkNames l cid : List Name) : Multiset Name) := by
  rw [chunkNames, chunkNames]
  refine overTiles_permute_map l σ _ _ _ (fun u => ?_)
  by_cases hc : (l.get u).chunk = cid
  · rw [if_pos hc, if_pos hc]
    exact tileNames_ren σ u (l.get u)
  · rw [if_neg hc, if_neg hc]
    rfl

theorem outNameTriples_permute (l : List (KeyMesh α)) (σ : Equiv.Perm (Fin l.length))
    (τ : ℚ) (cid : ChunkId) :
    ((outNameTriples (permute l σ) τ cid : List (Name × Name × Name)) :
        Multiset (Name × Name × Name)) =
      Multiset.map (fun T : Name × Name × Name =>
          (renName l.length σ.symm T.1, renName l.length σ.symm T.2.1,
            renName l.length σ.symm T.2.2))
        ((outNameTriples l τ cid : List (Name × Name × Name)) :
          Multiset (Name × Name × Name)) := by
  rw [outNameTriples, outNameTriples]
  refine overTiles_permute_map l σ _ _ _ (fun u => ?_)
  by_cases hc : (l.get u).chunk = cid
  · rw [if_pos hc, if_pos hc]
    rw [List.filter_congr (fun tr _ => retainedTriB_permute l σ τ u (l.get u) tr),
      List.map_map]
    refine List.map_congr_left fun tr _ => ?_
    show (resolve ((σ.symm u : Fin l.length) : ℕ) (l.get u) tr.1,
        resolve ((σ.symm u : Fin l.length) : ℕ) (l.get u) tr.2.1,
        resolve ((σ.symm u : Fin l.length) : ℕ) (l.get u) tr.2.2) = _
    rw [resolve_ren, resolve_ren, resolve_ren]
    rfl
  · rw [if_neg hc, if_neg hc]
    rfl

theorem mem_chunkNames_permute (l : List (KeyMesh α)) (σ : Equiv.Perm (Fin l.length))
    (cid : ChunkId) (v : Name) :
    renName l.length σ.symm v ∈ chunkNames (permute l σ) cid ↔ v ∈ chunkNames l cid := by
  rw [← Multiset.mem_coe, chunkNames_permute, Multiset.mem_map]
  constructor
  · rintro ⟨u, hu, he⟩
    rw [← renName_inj σ.symm he]
    exact Multiset.mem_coe.mp hu
  · exact fun hv => ⟨v, Multiset.mem_coe.mpr hv, rfl⟩

theorem mem_emitted_permute (l : List (KeyMesh α)) (σ : Equiv.Perm (Fin l.length))
    (τ : ℚ) (cid : ChunkId) (v : Name) :
    renName l.length σ.symm v ∈ emitted (permute l σ) τ cid ↔ v ∈ emitted l τ cid := by
  rw [mem_emitted, mem_emitted, mem_chunkNames_permute, retainedB_permute]

theorem emitted_permute_perm (l : List (KeyMesh α)) (σ : Equiv.Perm (Fin l.length))
    (τ : ℚ) (cid : ChunkId) :
    (emitted (permute l σ) τ cid).Perm
      ((emitted l τ cid).map (renName l.length σ.symm)) := by
  refine List.perm_of_nodup_nodup_toFinset_eq (emitted_nodup _ _ _)
    (List.Nodup.map (renName_inj σ.symm) (emitted_nodup l τ cid)) ?_
  ext w
  rw [List.mem_toFinset, List.mem_toFinset, List.mem_map]
  constructor
  · intro hw
    refine ⟨renName l.length σ w, ?_, renName_left σ w⟩
    rw [← mem_emitted_permute l σ, renName_left σ w]
    exact hw
  · rintro ⟨u, hu, rfl⟩
    exact (mem_emitted_permute l σ τ cid u).mpr hu

theorem emitted_permute_length (l : List (KeyMesh α)) (σ : Equiv.Perm (Fin l.length))
    (τ : ℚ) (cid : ChunkId) :
    (emitted (permute l σ) τ cid).length = (emitted l τ cid).length := by
  rw [(emitted_permute_perm l σ τ cid).length_eq, List.length_map]

theorem lookup_some_mem {xs : List (Nat × α)} {k : Nat} {v : α}
    (h : xs.lookup k = some v) : (k, v) ∈ xs := by
  induction xs with
  | nil => cases h
  | cons a r ih =>
    obtain ⟨k', b⟩ := a
    by_cases hk : k = k'
    · rw [List.lookup_cons, show (k == k') = true from by simpa using hk] at h
      cases h
      rw [hk]
      exact List.mem_cons_self _ _
    · rw [List.lookup_cons, show (k == k') = false from by simpa using hk] at h
      exact List.mem_cons_of_mem _ (ih h)

theorem lookup_mem_isSome {xs : List (Nat × α)} {k : Nat} {v : α}
    (h : (k, v) ∈ xs) : ∃ w, xs.lookup k = some w := by
  induction xs with
  | nil => cases h
  | cons a r ih =>
    obtain ⟨k', b⟩ := a
    by_cases hk : k = k'
    · exact ⟨b, by rw [List.lookup_cons, show (k == k') = true from by simpa using hk]⟩
    · rcases List.mem_cons.mp h with heq | h'
      · exact absurd (by simpa using congrArg Prod.fst heq) hk
      · obtain ⟨w, hw⟩ := ih h'
        refine ⟨w, ?_⟩
        rw [List.lookup_cons, show (k == k') = false from by simpa using hk, hw]

theorem lookup_none {xs : List (Nat × α)} {k : Nat}
    (h : ∀ p ∈ xs, p.1 ≠ k) : xs.lookup k = none := by
  induction xs with
  | nil => rfl
  | cons a r ih =>
    obtain ⟨k', b⟩ := a
    have hk : ¬(k = k') := fun he => h (k', b) (List.mem_cons_self _ _) (by simp [he])
    rw [List.lookup_cons, show (k == k') = false from by simpa using hk]
    exact ih fun p hp => h p (List.mem_cons_of_mem _ hp)

theorem posOf_permute (l : List (KeyMesh α)) (σ : Equiv.Perm (Fin l.length))
    (H : KeyConsistent l) (v : Name) :
    posOf (permute l σ) (renName l.length σ.symm v) = posOf l v := by
  match v with
  | Sum.inl (s, i) =>
    show posOf (permute l σ) (Sum.inl (natPerm l.length σ.symm s, i)) = _
    rw [posOf, posOf]
    by_cases hs : s < l.length
    · have ht : tileAt (permute l σ) (natPerm l.length σ.symm s) = tileAt l s := by
        rw [natPerm, dif_pos hs, tileAt_permute l σ (σ.symm ⟨s, hs⟩),
          Equiv.apply_symm_apply]
        exact (tileAt_get l ⟨s, hs⟩).symm
      rw [ht]
    · have h1 : tileAt (permute l σ) (natPerm l.length σ.symm s) = defaultMesh := by
        rw [natPerm, dif_neg hs]
        exact tileAt_default _ (by rw [length_permute]; omega)
      have h2 : tileAt l s = defaultMesh := tileAt_default _ (by omega)
      rw [h1, h2]
  | Sum.inr k =>
    show posOf (permute l σ) (Sum.inr k) = _
    rw [posOf, posOf]
    have hmem : ∀ p : Nat × α,
        p ∈ (permute l σ).flatMap (fun m => m.externals) ↔
          p ∈ l.flatMap (fun m => m.externals) := by
      intro p
      rw [List.mem_flatMap, List.mem_flatMap]
      constructor
      · rintro ⟨m, hm, hp⟩
        exact ⟨m, mem_permute.mp hm, hp⟩
      · rintro ⟨m, hm, hp⟩
        exact ⟨m, mem_permute.mpr hm, hp⟩
    cases h2 : ((permute l σ).flatMap (fun m => m.externals)).lookup k with
    | none =>
      have h1 : (l.flatMap (fun m => m.externals)).lookup k = none := by
        refine lookup_none fun p hp hpk => ?_
        have hp2 : (k, p.2) ∈ (permute l σ).flatMap (fun m => m.externals) := by
          rw [← hpk]
          exact (hmem p).mpr hp
        obtain ⟨w, hw⟩ := lookup_mem_isSome hp2
        rw [h2] at hw
        cases hw
      rw [h1]
    | some w =>
      have hw1 : (k, w) ∈ l.flatMap (fun m => m.externals) :=
        (hmem (k, w)).mp (lookup_some_mem h2)
      obtain ⟨w', hw'⟩ := lookup_mem_isSome hw1
      have hw2 : (k, w') ∈ l.flatMap (fun m => m.externals) := lookup_some_mem hw'
      obtain ⟨m1, hm1, hp1⟩ := List.mem_flatMap.mp hw1
      obtain ⟨m2, hm2, hp2⟩ := List.mem_flatMap.mp hw2
      rw [hw']
      have := H m1 hm1 m2 hm2 (k, w) hp1 (k, w') hp2 rfl
      simp only at this
      rw [this]

theorem outNameTriples_mem {l : List (KeyMesh α)} {τ : ℚ} {cid : ChunkId}
    {T : Name × Name × Name} (h : T ∈ outNameTriples l τ cid) :
    T.1 ∈ emitted l τ cid ∧ T.2.1 ∈ emitted l τ cid ∧ T.2.2 ∈ emitted l τ cid := by
  rw [outNameTriples] at h
  obtain ⟨t, ht, hT⟩ := mem_overTiles.mp h
  by_cases hc : (tileAt l t).chunk = cid
  · rw [if_pos hc] at hT
    obtain ⟨tr, htr, rfl⟩ := List.mem_map.mp hT
    have hret := (List.mem_filter.mp htr).2
    rw [retainedTriB] at hret
    simp only [Bool.and_eq_true] at hret
    obtain ⟨⟨⟨hwf, hr1⟩, hr2⟩, hr3⟩ := hret
    rw [triWF] at hwf
    simp only [Bool.and_eq_true, decide_eq_true_eq] at hwf
    have hch : ∀ i, i < (tileAt l t).internals.length + (tileAt l t).externals.length →
        resolve t (tileAt l t) i ∈ chunkNames l cid := by
      intro i hi
      rw [chunkNames]
      refine mem_overTiles.mpr ⟨t, ht, ?_⟩
      rw [if_pos hc]
      exact resolve_mem_tileNames t _ hi
    exact ⟨mem_emitted.mpr ⟨hch _ hwf.1.1, hr1⟩,
      mem_emitted.mpr ⟨hch _ hwf.1.2, hr2⟩,
      mem_emitted.mpr ⟨hch _ hwf.2, hr3⟩⟩
  · rw [if_neg hc] at hT
    cases hT

theorem getD_map_lt {γ δ : Type} {xs : List γ} {f : γ → δ} {i : Nat}
    (h : i < xs.length) (d : δ) (d' : γ) :
    (xs.map f).getD i d = f (xs.getD i d') := by
  rw [List.getD_eq_getElem _ _ (by simpa using h), List.getElem_map,
    List.getD_eq_getElem _ _ h]

theorem getD_nameIdx {e : List Name} {v : Name} (h : v ∈ e) (d : Name) :
    e.getD (nameIdx e v) d = v := by
  induction e with
  | nil => cases h
  | cons a r ih =>
    rw [nameIdx]
    split_ifs with he
    · simpa using he
    · have h' : v ∈ r := by
        rcases List.mem_cons.mp h with rfl | h'
        · exact absurd rfl he
        · exact h'
      simpa using ih h'

theorem nodup_getD_inj {e : List Name} (hn : e.Nodup) {i j : Nat}
    (hi : i < e.length) (hj : j < e.length) (d : Name)
    (h : e.getD i d = e.getD j d) : i = j := by
  rw [List.getD_eq_getElem _ _ hi, List.getD_eq_getElem _ _ hj] at h
  exact (List.Nodup.getElem_inj_iff hn).mp h

theorem outNameTriples_permute_nil (l : List (KeyMesh α)) (σ : Equiv.Perm (Fin l.length))
    (τ : ℚ) (cid : ChunkId) :
    outNameTriples (permute l σ) τ cid = [] ↔ outNameTriples l τ cid = [] := by
  rw [← Multiset.coe_eq_zero, ← Multiset.coe_eq_zero, outNameTriples_permute,
    Multiset.map_eq_zero]

theorem mem_writtenChunks_permute (l : List (KeyMesh α)) (σ : Equiv.Perm (Fin l.length))
    (τ : ℚ) (cid : ChunkId) :
    cid ∈ writtenChunks (permute l σ) τ ↔ cid ∈ writtenChunks l τ := by
  rw [writtenChunks, writtenChunks, List.mem_filter, List.mem_filter,
    List.mem_dedup, List.mem_dedup]
  constructor
  · rintro ⟨h1, h2⟩
    obtain ⟨m, hm, he⟩ := List.mem_map.mp h1
    refine ⟨List.mem_map.mpr ⟨m, mem_permute.mp hm, he⟩, ?_⟩
    simp only [decide_eq_true_eq] at h2 ⊢
    exact fun hnil => h2 ((outNameTriples_permute_nil l σ τ cid).mpr hnil)
  · rintro ⟨h1, h2⟩
    obtain ⟨m, hm, he⟩ := List.mem_map.mp h1
    refine ⟨List.mem_map.mpr ⟨m, mem_permute.mpr hm, he⟩, ?_⟩
    simp only [decide_eq_true_eq] at h2 ⊢
    exact fun hnil => h2 ((outNameTriples_permute_nil l σ τ cid).mp hnil)

/-- C3: order independence of the mesher.  Under the HostKeyMesh invariant
of the spec (equal external keys denote the same world-space vertex),
permuting the arrival order of the tiles yields, for every chunk, the same
optional output up to isomorphism: a chunk is written in one order iff it
is written in the other, and the two written meshes differ only by a
renaming of vertex indices (with triangle corners renamed accordingly) that
matches vertex positions and preserves every triangle's class of cyclic
rotations — so triangles match up to rotation, never up to reflection. -/
theorem C3_order_independence (l : List (KeyMesh α)) (σ : Equiv.Perm (Fin l.length))
    (H : KeyConsistent l) (τ : ℚ) (cid : ChunkId) :
    OptIso (getOutput l τ cid) (getOutput (permute l σ) τ cid) := by
  by_cases hc : cid ∈ writtenChunks l τ
  · rw [getOutput, getOutput, if_pos hc,
      if_pos ((mem_writtenChunks_permute l σ τ cid).mpr hc)]
    show MeshIso (chunkMesh l τ cid) (chunkMesh (permute l σ) τ cid)
    have hlen1 : (chunkMesh l τ cid).vertices.length = (emitted l τ cid).length := by
      simp only [chunkMesh, List.length_map]
    have hlen2 : (chunkMesh (permute l σ) τ cid).vertices.length
        = (emitted l τ cid).length := by
      simp only [chunkMesh, List.length_map]
      exact emitted_permute_length l σ τ cid
    have hmemD : ∀ {i : Nat}, i < (emitted l τ cid).length →
        (emitted l τ cid).getD i (Sum.inr 0) ∈ emitted l τ cid := by
      intro i hi
      rw [List.getD_eq_getElem _ _ hi]
      exact List.getElem_mem _
    refine ⟨by rw [hlen1, hlen2],
      fun i => nameIdx (emitted (permute l σ) τ cid)
        (renName l.length σ.symm ((emitted l τ cid).getD i (Sum.inr 0))),
      ?_, ?_, ?_, ?_⟩
    · intro i hi
      rw [hlen1] at hi
      rw [hlen2, ← emitted_permute_length l σ τ cid]
      exact nameIdx_lt ((mem_emitted_permute l σ τ cid _).mpr (hmemD hi))
    · intro i hi j hj hg
      rw [hlen1] at hi hj
      have h1 := (mem_emitted_permute l σ τ cid _).mpr (hmemD hi)
      have h2 := (mem_emitted_permute l σ τ cid _).mpr (hmemD hj)
      have h3 := renName_inj σ.symm (nameIdx_inj h1 h2 hg)
      exact nodup_getD_inj (emitted_nodup l τ cid) hi hj _ h3
    · intro i hi
      rw [hlen1] at hi
      have hm1 := hmemD hi
      have hm2 := (mem_emitted_permute l σ τ cid _).mpr hm1
      simp only [chunkMesh]
      rw [map_getD_nameIdx hm2 default, posOf_permute l σ H,
        getD_map_lt hi default (Sum.inr 0)]
    · have hcongr : (outNameTriples l τ cid).map
          (fun T : Name × Name × Name =>
            rotClass (triMap (fun i => nameIdx (emitted (permute l σ) τ cid)
              (renName l.length σ.symm ((emitted l τ cid).getD i (Sum.inr 0))))
              (nameIdx (emitted l τ cid) T.1, nameIdx (emitted l τ cid) T.2.1,
                nameIdx (emitted l τ cid) T.2.2)))
          = (outNameTriples l τ cid).map
          (fun T : Name × Name × Name =>
            rotClass (nameIdx (emitted (permute l σ) τ cid) (renName l.length σ.symm T.1),
              nameIdx (emitted (permute l σ) τ cid) (renName l.length σ.symm T.2.1),
              nameIdx (emitted (permute l σ) τ cid) (renName l.length σ.symm T.2.2))) := by
        refine List.map_congr_left fun T hT => ?_
        obtain ⟨hT1, hT2, hT3⟩ := outNameTriples_mem hT
        rw [triMap]
        rw [show ((nameIdx (emitted l τ cid) T.1, nameIdx (emitted l τ cid) T.2.1,
            nameIdx (emitted l τ cid) T.2.2) : Nat × Nat × Nat).1
            = nameIdx (emitted l τ cid) T.1 from rfl]
        rw [getD_nameIdx hT1, getD_nameIdx hT2, getD_nameIdx hT3]
      simp only [chunkMesh, idxOf]
      rw [List.map_map, List.map_map]
      rw [show ((fun t => rotClass (triMap (fun i =>
          nameIdx (emitted (permute l σ) τ cid)
            (renName l.length σ.symm ((emitted l τ cid).getD i (Sum.inr 0)))) t)) ∘
          (fun T : Name × Name × Name =>
            (nameIdx (emitted l τ cid) T.1, nameIdx (emitted l τ cid) T.2.1,
              nameIdx (emitted l τ cid) T.2.2)))
          = fun T : Name × Name × Name =>
            rotClass (triMap (fun i => nameIdx (emitted (permute l σ) τ cid)
              (renName l.length σ.symm ((emitted l τ cid).getD i (Sum.inr 0))))
              (nameIdx (emitted l τ cid) T.1, nameIdx (emitted l τ cid) T.2.1,
                nameIdx (emitted l τ cid) T.2.2)) from rfl]
      rw [hcongr]
      rw [← Multiset.map_coe, ← Multiset.map_coe, outNameTriples_permute,
        Multiset.map_map]
      exact Multiset.map_congr rfl fun T _ => rfl
  · rw [getOutput, getOutput, if_neg hc,
      if_neg (fun h => hc ((mem_writtenChunks_permute l σ τ cid).mp h))]
    exact trivial

/-- C3, witness: the weld scenario with tiles 1 and 3 swapped. -/
theorem C3_order_independence_witness :
    OptIso (getOutput weldTiles 0 chunk0)
      (getOutput (permute weldTiles
        (Equiv.swap (⟨1, by decide⟩ : Fin weldTiles.length) ⟨3, by decide⟩)) 0 chunk0) :=
  C3_order_independence weldTiles
    (Equiv.swap (⟨1, by decide⟩ : Fin weldTiles.length) ⟨3, by decide⟩)
    (by unfold KeyConsistent; decide) 0 chunk0
